import Mathlib

/-!
Verification of the gitignore rule organizer (the `cleanupGitignoreCommand`
text transformation): a shallow embedding of the Flat and Smart cleanup
modes over JavaScript strings, modelled as lists of Unicode scalar values.
-/

namespace GitignoreHelper

/-- A JavaScript string, modelled as the list of its Unicode scalar values
(the input is decoded text, so no lone surrogates occur). -/
abbrev Str := List Char

/-- Convenience conversion from Lean string literals. -/
def str (s : String) : Str := s.toList

/-- ECMAScript whitespace: the `WhiteSpace` and `LineTerminator` productions,
exactly the set stripped by `String.prototype.trim`. -/
def jsWS (c : Char) : Bool :=
  let n := c.toNat
  n == 0x9 || n == 0xA || n == 0xB || n == 0xC || n == 0xD || n == 0x20 ||
  n == 0xA0 || n == 0x1680 || (0x2000 ≤ n && n ≤ 0x200A) || n == 0x2028 ||
  n == 0x2029 || n == 0x202F || n == 0x205F || n == 0x3000 || n == 0xFEFF

/-- Strip leading ECMAScript whitespace. -/
def ltrim (s : Str) : Str := s.dropWhile jsWS

/-- Strip trailing ECMAScript whitespace. -/
def rtrim (s : Str) : Str := (s.reverse.dropWhile jsWS).reverse

/-- `line.trim()`. -/
def trim (s : Str) : Str := ltrim (rtrim s)

/-- Prepend a character to the first piece of a split. -/
def consHead (c : Char) : List Str → List Str
  | [] => [[c]]
  | l :: ls => (c :: l) :: ls

/-- Split on `\n` alone. -/
def splitNL : Str → List Str
  | [] => [[]]
  | c :: rest => if c = '\n' then [] :: splitNL rest else consHead c (splitNL rest)

/-- Remove a single trailing `\r`, if present. -/
def chopCR (l : Str) : Str := if l.getLast? = some '\r' then l.dropLast else l

/-- `content.split(/\r?\n/)`: each line break is `\n` optionally preceded by
`\r`, and a `\r` not followed by `\n` is ordinary content. Equivalently:
split on `\n`, then remove the single `\r` (when present) that each
non-final piece kept from its consumed `\r\n` break. -/
def splitLines (s : Str) : List Str :=
  (splitNL s).dropLast.map chopCR ++ (splitNL s).drop ((splitNL s).length - 1)

/-- `trimmed.startsWith('#')`. -/
def startsWithHash : Str → Bool
  | '#' :: _ => true
  | _ => false

/-- The UTF-16 code units encoding one Unicode scalar value. -/
def utf16Units (c : Char) : List Nat :=
  let n := c.toNat
  if n < 0x10000 then [n]
  else [0xD800 + (n - 0x10000) / 0x400, 0xDC00 + (n - 0x10000) % 0x400]

/-- The UTF-16 code-unit sequence of a JavaScript string. -/
def units (s : Str) : List Nat := (s.map utf16Units).flatten

/-- Lexicographic `≤` on code-unit sequences. -/
def unitsLeB : List Nat → List Nat → Bool
  | [], _ => true
  | _ :: _, [] => false
  | a :: as, b :: bs => if a < b then true else if b < a then false else unitsLeB as bs

/-- The order used by `Array.prototype.sort()` with the default comparator:
strings compared code unit by code unit (UTF-16), i.e. lexicographically on
their code-unit sequences. -/
def jsLE (s t : Str) : Prop := unitsLeB (units s) (units t) = true

instance : DecidableRel jsLE := fun s t =>
  inferInstanceAs (Decidable (unitsLeB (units s) (units t) = true))

/-- The code-point lexicographic order the spec prescribes ("plain
lexicographic (code-point) ascending"); stated from the spec's words, to be
compared with the source's `jsLE`. -/
def cpLE (s t : Str) : Prop := unitsLeB (s.map Char.toNat) (t.map Char.toNat) = true

instance : DecidableRel cpLE := fun s t =>
  inferInstanceAs (Decidable (unitsLeB (s.map Char.toNat) (t.map Char.toNat) = true))

/-- A section of a gitignore document: a leading comment block (raw lines)
and the rule lines collected after it (trimmed). -/
structure Section where
  comments : List Str
  rules : List Str
deriving DecidableEq, Repr

/-- The parse loop of Smart mode: for each line, a blank line flushes a
non-empty current section; a comment line flushes only when the current
section already has rules, then is appended raw to the (possibly fresh)
section's comments; any other line is appended trimmed to the rules. -/
def parseLines : List Str → Section → List Section
  | [], cur =>
    if cur.comments.length > 0 || cur.rules.length > 0 then [cur] else []
  | line :: ls, cur =>
    let trimmed := trim line
    if trimmed.isEmpty then
      if cur.comments.length > 0 || cur.rules.length > 0 then
        cur :: parseLines ls ⟨[], []⟩
      else
        parseLines ls cur
    else if startsWithHash trimmed then
      if cur.rules.length > 0 then
        cur :: parseLines ls ⟨[line], []⟩
      else
        parseLines ls ⟨cur.comments ++ [line], cur.rules⟩
    else
      parseLines ls ⟨cur.comments, cur.rules ++ [trimmed]⟩

/-- The sections Smart mode parses out of `content`. -/
def parseSections (content : Str) : List Section :=
  parseLines (splitLines content) ⟨[], []⟩

/-- `lines.join('\n')`. -/
def lineJoin : List Str → Str
  | [] => []
  | [l] => l
  | l :: ls => l ++ '\n' :: lineJoin ls

/-- `Array.from(new Set(xs))`: keep the first occurrence of each element. -/
def dedupAux : List Str → List Str → List Str
  | [], _ => []
  | x :: xs, seen => if x ∈ seen then dedupAux xs seen else x :: dedupAux xs (x :: seen)

/-- Insertion-order deduplication, as `Array.from(new Set(xs))`. -/
def setDedup (l : List Str) : List Str := dedupAux l []

/-- `Array.from(new Set(section.rules)).sort()`: on a duplicate-free array the
default sort's result is the unique `jsLE`-sorted rearrangement, which
insertion sort computes. -/
def uniqueRules (s : Section) : List Str := List.insertionSort jsLE (setDedup s.rules)

/-- Render one section: comment header joined by `\n` (with a trailing `\n`
when non-empty), then the sorted unique rules joined by `\n`; the
concatenation is trimmed, and an entirely empty section renders as `''`. -/
def renderSection (s : Section) : Str :=
  let ur := uniqueRules s
  let header := if s.comments.length > 0 then lineJoin s.comments ++ ['\n'] else []
  let body := lineJoin ur
  if header.isEmpty && body.isEmpty then [] else trim (header ++ body)

/-- `sections.join('\n\n')`. -/
def sectionJoin : List Str → Str
  | [] => []
  | [s] => s
  | s :: ss => s ++ '\n' :: '\n' :: sectionJoin ss

/-- Smart mode: parse into sections, render each, drop empty renderings, join
with a blank line, append a trailing newline. -/
def organizeSmart (content : Str) : Str :=
  let secs := parseSections content
  sectionJoin ((secs.map renderSection).filter (fun s => s.length > 0)) ++ ['\n']

/-- The filtering loop of Flat mode: keep the trimmed form of each line that
is non-blank, does not start with `#`, and has not been seen before. -/
def flatCollect : List Str → List Str → List Str
  | [], _ => []
  | line :: ls, seen =>
    let t := trim line
    if !t.isEmpty && !startsWithHash t && !seen.contains t then
      t :: flatCollect ls (t :: seen)
    else
      flatCollect ls seen

/-- Flat mode: trim, drop blanks and comments, dedupe, sort, join with `\n`
plus a trailing `\n`. -/
def organizeFlat (content : Str) : Str :=
  lineJoin (List.insertionSort jsLE (flatCollect (splitLines content) [])) ++ ['\n']

/-- The two cleanup modes offered by the command's quick pick. -/
inductive SortMode
  | Smart
  | Flat
deriving DecidableEq, Repr

/-- `organize(text, mode)`. -/
def organize (content : Str) (m : SortMode) : Str :=
  match m with
  | .Smart => organizeSmart content
  | .Flat => organizeFlat content

/-- A line whose trimmed form starts with `#`. -/
def isCommentLineB (l : Str) : Bool := startsWithHash (trim l)

/-- A line whose trimmed form is non-empty and does not start with `#`. -/
def isRuleLineB (l : Str) : Bool := !(trim l).isEmpty && !startsWithHash (trim l)

/-- What parsing guarantees about a stored rule: already trimmed, non-blank,
not a comment. -/
def goodRule (r : Str) : Prop := trim r = r ∧ r ≠ [] ∧ startsWithHash r = false

/-- Invariants of a parsed section: comments are comment lines without
embedded newlines, rules are trimmed newline-free rule patterns, and the
section is non-empty. -/
def GoodSec (sec : Section) : Prop :=
  (∀ c ∈ sec.comments, isCommentLineB c = true ∧ '\n' ∉ c) ∧
  (∀ r ∈ sec.rules, goodRule r ∧ '\n' ∉ r) ∧
  (sec.comments ≠ [] ∨ sec.rules ≠ [])

/-- Apply `f` to the first element only. -/
def mapHead (f : Str → Str) : List Str → List Str
  | [] => []
  | l :: ls => f l :: ls

/-- Apply `f` to the last element only. -/
def mapLast (f : Str → Str) : List Str → List Str
  | [] => []
  | [l] => [f l]
  | l :: ls => l :: mapLast f ls

/-- The lines of a rendered section: the section-level `trim` removes
leading whitespace inside the first line and trailing whitespace inside the
last line, so the rendered text is the comments with their edges trimmed
followed by the sorted unique rules. -/
def renderedLines (sec : Section) : List Str :=
  mapHead ltrim (mapLast rtrim (sec.comments ++ uniqueRules sec))

/-- The comment lines as they appear in the rendered section. -/
def canonComments (sec : Section) : List Str :=
  if uniqueRules sec = [] then mapHead ltrim (mapLast rtrim sec.comments)
  else mapHead ltrim sec.comments

/-- A section as it comes back from re-parsing its own rendering. -/
def canonSec (sec : Section) : Section := ⟨canonComments sec, uniqueRules sec⟩

/-- The sorted deduplicated rule list produced by Flat mode. -/
def flatRules (content : Str) : List Str :=
  List.insertionSort jsLE (flatCollect (splitLines content) [])

/-- Concatenate groups of lines with a single blank line between groups. -/
def groupLines : List (List Str) → List Str
  | [] => []
  | [g] => g
  | g :: gs => g ++ [] :: groupLines gs

/-- All output lines of Smart mode, in order: the sections' rendered lines
separated by single blank lines. -/
def allLines (secs : List Section) : List Str :=
  groupLines (secs.map renderedLines)

/-- One line separator: `\r\n` or `\n`. -/
def sep (b : Bool) : Str := if b then ['\r', '\n'] else ['\n']

/-- Rejoin lines choosing, per break, either of the two accepted line
separators (`false` picks `\n`, `true` picks `\r\n`). -/
def joinSeps : List Str → List Bool → Str
  | [], _ => []
  | [l], _ => l
  | l :: l' :: ls, [] => l ++ '\n' :: joinSeps (l' :: ls) []
  | l :: l' :: ls, b :: bs => l ++ sep b ++ joinSeps (l' :: ls) bs

/-- `content.replaceAll('\n', '\r\n')`. -/
def replaceNL : Str → Str
  | [] => []
  | c :: rest => if c = '\n' then '\r' :: '\n' :: replaceNL rest else c :: replaceNL rest

/-! ### Whitespace and trimming -/

theorem rtrim_eq_rdropWhile (s : Str) : rtrim s = s.rdropWhile jsWS := rfl

theorem ltrim_sublist (s : Str) : List.Sublist (ltrim s) s := List.dropWhile_sublist _

theorem rtrim_prefix_self (s : Str) : List.IsPrefix (rtrim s) s := by
  rw [rtrim_eq_rdropWhile]; exact List.rdropWhile_prefix _ _

theorem rtrim_sublist (s : Str) : List.Sublist (rtrim s) s := (rtrim_prefix_self s).sublist

theorem trim_sublist (s : Str) : List.Sublist (trim s) s :=
  (ltrim_sublist (rtrim s)).trans (rtrim_sublist s)

theorem trim_subset {s : Str} : ∀ c ∈ trim s, c ∈ s := fun _ hc => (trim_sublist s).mem hc

theorem ltrim_eq_nil_iff {s : Str} : ltrim s = [] ↔ ∀ c ∈ s, jsWS c := by
  simp [ltrim, List.dropWhile_eq_nil_iff]

theorem rtrim_eq_nil_iff {s : Str} : rtrim s = [] ↔ ∀ c ∈ s, jsWS c := by
  rw [rtrim_eq_rdropWhile]; exact List.rdropWhile_eq_nil_iff

theorem ltrim_cons_of_ws {c : Char} {s : Str} (h : jsWS c) : ltrim (c :: s) = ltrim s := by
  simp [ltrim, List.dropWhile_cons, h]

theorem ltrim_cons_of_not {c : Char} {s : Str} (h : jsWS c = false) :
    ltrim (c :: s) = c :: s := by
  simp [ltrim, List.dropWhile_cons, h]

theorem rtrim_concat_of_ws {c : Char} {s : Str} (h : jsWS c) : rtrim (s ++ [c]) = rtrim s := by
  rw [rtrim_eq_rdropWhile, rtrim_eq_rdropWhile]
  exact List.rdropWhile_concat_pos _ _ _ (by simp [h])

theorem rtrim_concat_of_not {c : Char} {s : Str} (h : jsWS c = false) :
    rtrim (s ++ [c]) = s ++ [c] := by
  rw [rtrim_eq_rdropWhile]
  exact List.rdropWhile_concat_neg _ _ _ (by simp [h])

theorem ltrim_append_of_ne {a : Str} (b : Str) (h : ltrim a ≠ []) :
    ltrim (a ++ b) = ltrim a ++ b := by
  have he : (a.dropWhile jsWS).isEmpty = false := by
    rcases hd : a.dropWhile jsWS with _ | ⟨x, xs⟩
    · exact absurd hd h
    · rfl
  show (a ++ b).dropWhile jsWS = a.dropWhile jsWS ++ b
  rw [List.dropWhile_append, he]
  simp

theorem rtrim_append_of_ne (a : Str) {b : Str} (h : rtrim b ≠ []) :
    rtrim (a ++ b) = a ++ rtrim b := by
  have he : (b.reverse.dropWhile jsWS).isEmpty = false := by
    rcases hd : b.reverse.dropWhile jsWS with _ | ⟨x, xs⟩
    · exact absurd (by simp [rtrim, hd]) h
    · rfl
  show ((a ++ b).reverse.dropWhile jsWS).reverse = a ++ (b.reverse.dropWhile jsWS).reverse
  rw [List.reverse_append, List.dropWhile_append, he]
  simp

theorem rtrim_append_of_nil (a : Str) {b : Str} (h : rtrim b = []) :
    rtrim (a ++ b) = rtrim a := by
  have he : (b.reverse.dropWhile jsWS).isEmpty = true := by
    have : b.reverse.dropWhile jsWS = [] := by
      have := congrArg List.reverse h
      simpa [rtrim] using this
    simp [this]
  show ((a ++ b).reverse.dropWhile jsWS).reverse = rtrim a
  rw [List.reverse_append, List.dropWhile_append, he]
  rfl

theorem ltrim_idem (s : Str) : ltrim (ltrim s) = ltrim s := List.dropWhile_idempotent _ _

theorem rtrim_idem (s : Str) : rtrim (rtrim s) = rtrim s := by
  rw [rtrim_eq_rdropWhile, rtrim_eq_rdropWhile]; exact List.rdropWhile_idempotent _ _

theorem rtrim_cons_of_ne {c : Char} {t : Str} (h : rtrim t ≠ []) :
    rtrim (c :: t) = c :: rtrim t := rtrim_append_of_ne [c] h

theorem rtrim_cons_of_nil {c : Char} {t : Str} (h : rtrim t = []) :
    rtrim (c :: t) = if jsWS c then [] else [c] := by
  have h1 : rtrim ([c] ++ t) = rtrim [c] := rtrim_append_of_nil [c] h
  simp only [List.singleton_append] at h1
  rw [h1, rtrim_eq_rdropWhile, List.rdropWhile_singleton]

theorem ltrim_rtrim_comm (s : Str) : rtrim (ltrim s) = ltrim (rtrim s) := by
  induction s with
  | nil => rfl
  | cons c t ih =>
    by_cases hrt : rtrim t = []
    · by_cases hws : jsWS c
      · rw [ltrim_cons_of_ws hws, ih, hrt, rtrim_cons_of_nil hrt, if_pos hws]
      · have hws' : jsWS c = false := by simpa using hws
        rw [ltrim_cons_of_not hws', rtrim_cons_of_nil hrt, if_neg hws,
          ltrim_cons_of_not hws']
    · by_cases hws : jsWS c
      · rw [ltrim_cons_of_ws hws, ih, rtrim_cons_of_ne hrt, ltrim_cons_of_ws hws]
      · have hws' : jsWS c = false := by simpa using hws
        rw [ltrim_cons_of_not hws', rtrim_cons_of_ne hrt, ltrim_cons_of_not hws']

theorem trim_trim (s : Str) : trim (trim s) = trim s := by
  show ltrim (rtrim (ltrim (rtrim s))) = ltrim (rtrim s)
  rw [ltrim_rtrim_comm (rtrim s), rtrim_idem s, ltrim_idem]

theorem trim_ltrim (s : Str) : trim (ltrim s) = trim s := by
  show ltrim (rtrim (ltrim s)) = ltrim (rtrim s)
  rw [ltrim_rtrim_comm s, ltrim_idem]

theorem trim_rtrim (s : Str) : trim (rtrim s) = trim s := by
  show ltrim (rtrim (rtrim s)) = ltrim (rtrim s)
  rw [rtrim_idem]

theorem rtrim_getLast_not_ws {s : Str} {c : Char} (h : (rtrim s).getLast? = some c) :
    jsWS c = false := by
  have hne : rtrim s ≠ [] := by intro h0; rw [h0] at h; simp at h
  have hc : (rtrim s).getLast hne = c := by
    rw [List.getLast?_eq_getLast (rtrim s) hne] at h
    exact Option.some.inj h
  have h2 : ¬ jsWS ((rtrim s).getLast hne) :=
    List.rdropWhile_last_not (p := jsWS) (l := s) hne
  rw [hc] at h2
  simpa using h2

theorem trim_eq_nil_iff {s : Str} : trim s = [] ↔ ∀ c ∈ s, jsWS c := by
  constructor
  · intro h
    have h2 : ∀ c ∈ rtrim s, jsWS c := ltrim_eq_nil_iff.mp h
    have h3 : rtrim s = [] := by
      by_contra hne
      have hv := rtrim_getLast_not_ws (List.getLast?_eq_getLast (rtrim s) hne)
      have hlast := h2 _ (List.getLast_mem hne)
      simp [hv] at hlast
    exact rtrim_eq_nil_iff.mp h3
  · intro h
    have : rtrim s = [] := rtrim_eq_nil_iff.mpr h
    simp [trim, this, ltrim]

theorem ltrim_ne_nil_of_trim {s : Str} (h : trim s ≠ []) : ltrim s ≠ [] := by
  intro h0
  exact h (trim_eq_nil_iff.mpr (ltrim_eq_nil_iff.mp h0))

theorem rtrim_ne_nil_of_trim {s : Str} (h : trim s ≠ []) : rtrim s ≠ [] := by
  intro h0
  exact h (trim_eq_nil_iff.mpr (rtrim_eq_nil_iff.mp h0))

theorem ltrim_eq_self_of_head {s : Str} {c : Char} (h : s.head? = some c)
    (hc : jsWS c = false) : ltrim s = s := by
  cases s with
  | nil => simp at h
  | cons d t =>
    have : d = c := by simpa using h
    subst this
    exact ltrim_cons_of_not hc

theorem rtrim_eq_self_of_getLast {s : Str} {c : Char} (h : s.getLast? = some c)
    (hc : jsWS c = false) : rtrim s = s := by
  have hne : s ≠ [] := by intro h0; rw [h0] at h; simp at h
  have hs : s.dropLast ++ [s.getLast hne] = s := List.dropLast_append_getLast hne
  have hlast : s.getLast hne = c := by
    rw [List.getLast?_eq_getLast s hne] at h
    exact Option.some.inj h
  have hrepr : s = s.dropLast ++ [c] := by rw [← hlast]; exact hs.symm
  calc rtrim s = rtrim (s.dropLast ++ [c]) := by conv_lhs => rw [hrepr]
    _ = s.dropLast ++ [c] := rtrim_concat_of_not hc
    _ = s := hrepr.symm

theorem trim_fix_rtrim {s : Str} (h : trim s = s) : rtrim s = s := by
  have h1 : List.Sublist (trim s) (rtrim s) := ltrim_sublist (rtrim s)
  have h2 : List.Sublist (rtrim s) s := rtrim_sublist s
  have hlen : (rtrim s).length = s.length := by
    have lb : s.length ≤ (rtrim s).length := by
      have := h1.length_le
      rwa [h] at this
    exact le_antisymm h2.length_le lb
  exact h2.eq_of_length hlen

theorem trim_fix_ltrim {s : Str} (h : trim s = s) : ltrim s = s := by
  have := trim_fix_rtrim h
  calc ltrim s = ltrim (rtrim s) := by rw [this]
    _ = s := h

theorem trim_chopCR (l : Str) : trim (chopCR l) = trim l := by
  unfold chopCR
  by_cases h : l.getLast? = some '\r'
  · rw [if_pos h]
    have hne : l ≠ [] := by intro h0; rw [h0] at h; simp at h
    have hlast : l.getLast hne = '\r' := by
      rw [List.getLast?_eq_getLast l hne] at h
      exact Option.some.inj h
    have hs : l.dropLast ++ ['\r'] = l := by rw [← hlast]; exact List.dropLast_append_getLast hne
    calc trim l.dropLast = ltrim (rtrim (l.dropLast ++ ['\r'])) := by
          rw [rtrim_concat_of_ws (by decide)]; rfl
      _ = trim l := by rw [hs]; rfl
  · rw [if_neg h]

theorem ltrim_head_not_ws {s : Str} {c : Char} (h : (ltrim s).head? = some c) :
    jsWS c = false := by
  have := List.head?_dropWhile_not jsWS s
  rw [show s.dropWhile jsWS = ltrim s from rfl, h] at this
  exact this

theorem trim_head_not_ws {s : Str} {c : Char} (h : (trim s).head? = some c) :
    jsWS c = false := ltrim_head_not_ws h

theorem trim_getLast_not_ws {s : Str} {c : Char} (h : (trim s).getLast? = some c) :
    jsWS c = false := by
  apply rtrim_getLast_not_ws (s := ltrim s)
  rw [ltrim_rtrim_comm s]
  exact h

theorem trim_of_edges {s : Str} (hh : ∀ c, s.head? = some c → jsWS c = false)
    (hl : ∀ c, s.getLast? = some c → jsWS c = false) : trim s = s := by
  cases hs : s with
  | nil => rfl
  | cons d t =>
    rw [← hs]
    have hne : s ≠ [] := by rw [hs]; exact List.cons_ne_nil _ _
    have h1 : rtrim s = s := by
      apply rtrim_eq_self_of_getLast (List.getLast?_eq_getLast s hne)
      exact hl _ (List.getLast?_eq_getLast s hne)
    show ltrim (rtrim s) = s
    rw [h1]
    apply ltrim_eq_self_of_head (c := d) (by rw [hs]; rfl)
    exact hh d (by rw [hs]; rfl)

/-! ### Splitting into lines -/

theorem consHead_ne_nil (c : Char) (ls : List Str) : consHead c ls ≠ [] := by
  cases ls <;> simp [consHead]

theorem splitNL_ne_nil (s : Str) : splitNL s ≠ [] := by
  induction s with
  | nil => simp [splitNL]
  | cons c t ih =>
    by_cases h : c = '\n'
    · simp [splitNL, h]
    · simp only [splitNL, if_neg h]
      exact consHead_ne_nil _ _

theorem mem_splitNL_no_nl {s : Str} : ∀ l ∈ splitNL s, '\n' ∉ l := by
  induction s with
  | nil =>
    intro l hl
    rw [splitNL] at hl
    simp at hl
    simp [hl]
  | cons c t ih =>
    intro l hl
    by_cases h : c = '\n'
    · rw [splitNL, if_pos h] at hl
      rcases List.mem_cons.mp hl with h1 | h1
      · simp [h1]
      · exact ih l h1
    · rw [splitNL, if_neg h] at hl
      rcases he : splitNL t with _ | ⟨l0, ls⟩
      · exact absurd he (splitNL_ne_nil t)
      · rw [he, consHead] at hl
        rcases List.mem_cons.mp hl with h1 | h1
        · subst h1
          intro hmem
          rcases List.mem_cons.mp hmem with h2 | h2
          · exact h h2.symm
          · exact ih l0 (he ▸ List.mem_cons_self _ _) h2
        · exact ih l (he ▸ List.mem_cons_of_mem _ h1)

theorem splitNL_append_nl {l : Str} (hl : '\n' ∉ l) (t : Str) :
    splitNL (l ++ '\n' :: t) = l :: splitNL t := by
  induction l with
  | nil => simp [splitNL]
  | cons c l' ih =>
    have hc : c ≠ '\n' := fun h => hl (h ▸ List.mem_cons_self _ _)
    have hl' : '\n' ∉ l' := fun h => hl (List.mem_cons_of_mem _ h)
    rw [List.cons_append, splitNL, if_neg hc, ih hl', consHead]

theorem splitNL_no_nl {s : Str} (h : '\n' ∉ s) : splitNL s = [s] := by
  induction s with
  | nil => rfl
  | cons c t ih =>
    have hc : c ≠ '\n' := fun hh => h (hh ▸ List.mem_cons_self _ _)
    have ht : '\n' ∉ t := fun hh => h (List.mem_cons_of_mem _ hh)
    rw [splitNL, if_neg hc, ih ht, consHead]

/-! ### Joining lines -/

theorem lineJoin_cons {l : Str} {ls : List Str} (h : ls ≠ []) :
    lineJoin (l :: ls) = l ++ '\n' :: lineJoin ls := by
  cases ls with
  | nil => exact absurd rfl h
  | cons l' ls' => rfl

theorem lineJoin_append {a b : List Str} (ha : a ≠ []) (hb : b ≠ []) :
    lineJoin (a ++ b) = lineJoin a ++ '\n' :: lineJoin b := by
  induction a with
  | nil => exact absurd rfl ha
  | cons l a' ih =>
    cases a' with
    | nil =>
      cases b with
      | nil => exact absurd rfl hb
      | cons b0 bs => simp [lineJoin]
    | cons a0 as =>
      rw [List.cons_append, lineJoin_cons (by simp), ih (by simp),
        lineJoin_cons (List.cons_ne_nil _ _)]
      simp

theorem mem_lineJoin {c : Char} {ls : List Str} (h : c ∈ lineJoin ls) :
    c = '\n' ∨ ∃ l ∈ ls, c ∈ l := by
  induction ls with
  | nil => simp [lineJoin] at h
  | cons l ls' ih =>
    cases ls' with
    | nil =>
      right
      exact ⟨l, List.mem_cons_self _ _, h⟩
    | cons l0 ls0 =>
      rw [lineJoin_cons (by simp)] at h
      rcases List.mem_append.mp h with h1 | h1
      · right; exact ⟨l, List.mem_cons_self _ _, h1⟩
      · rcases List.mem_cons.mp h1 with h2 | h2
        · left; exact h2
        · rcases ih h2 with h3 | ⟨l', hl', hc⟩
          · left; exact h3
          · right; exact ⟨l', List.mem_cons_of_mem _ hl', hc⟩

theorem splitNL_join {ls : List Str} (h : ls ≠ []) (hnl : ∀ l ∈ ls, '\n' ∉ l) :
    splitNL (lineJoin ls ++ ['\n']) = ls ++ [[]] := by
  induction ls with
  | nil => exact absurd rfl h
  | cons l ls' ih =>
    cases ls' with
    | nil =>
      show splitNL (lineJoin [l] ++ '\n' :: []) = [l, []]
      rw [show lineJoin [l] = l from rfl, splitNL_append_nl (hnl l (by simp))]
      rfl
    | cons l0 ls0 =>
      rw [lineJoin_cons (by simp), List.append_assoc, List.cons_append,
        splitNL_append_nl (hnl l (by simp)),
        ih (by simp) (fun x hx => hnl x (List.mem_cons_of_mem _ hx))]
      rfl

/-! ### splitLines -/

theorem drop_length_sub_one {ls : List Str} (h : ls ≠ []) :
    ls.drop (ls.length - 1) = [ls.getLast h] := by
  induction ls with
  | nil => exact absurd rfl h
  | cons l ls' ih =>
    cases ls' with
    | nil => rfl
    | cons l0 ls0 =>
      have h0 : l0 :: ls0 ≠ [] := by simp
      show (l :: l0 :: ls0).drop (ls0.length + 1) = _
      rw [List.drop_succ_cons]
      have := ih h0
      simp only [List.length_cons, Nat.add_sub_cancel] at this
      rw [this, List.getLast_cons h0]

theorem splitLines_nil : splitLines [] = [[]] := rfl

theorem splitLines_eq_pieces {s : Str} :
    splitLines s = (splitNL s).dropLast.map chopCR ++
      [(splitNL s).getLast (splitNL_ne_nil s)] := by
  rw [splitLines, drop_length_sub_one (splitNL_ne_nil s)]

theorem splitLines_of_no_nl {s : Str} (h : '\n' ∉ s) : splitLines s = [s] := by
  unfold splitLines
  rw [splitNL_no_nl h]
  rfl

theorem splitLines_append_nl {l : Str} (hl : '\n' ∉ l) (t : Str) :
    splitLines (l ++ '\n' :: t) = chopCR l :: splitLines t := by
  unfold splitLines
  rw [splitNL_append_nl hl]
  rcases hps : splitNL t with _ | ⟨p0, ps⟩
  · exact absurd hps (splitNL_ne_nil t)
  · simp only [List.dropLast_cons_of_ne_nil (List.cons_ne_nil p0 ps), List.map_cons,
      List.length_cons, Nat.add_sub_cancel, List.drop_succ_cons, List.cons_append]

theorem splitLines_join {ls : List Str} (h : ls ≠ []) (hnl : ∀ l ∈ ls, '\n' ∉ l) :
    splitLines (lineJoin ls ++ ['\n']) = ls.map chopCR ++ [[]] := by
  induction ls with
  | nil => exact absurd rfl h
  | cons l ls' ih =>
    cases ls' with
    | nil =>
      show splitLines (lineJoin [l] ++ '\n' :: []) = _
      rw [show lineJoin [l] = l from rfl, splitLines_append_nl (hnl l (by simp))]
      rfl
    | cons l0 ls0 =>
      rw [lineJoin_cons (by simp), List.append_assoc, List.cons_append,
        splitLines_append_nl (hnl l (by simp)),
        ih (by simp) (fun x hx => hnl x (List.mem_cons_of_mem _ hx))]
      rfl

theorem chopCR_subset {l : Str} : ∀ c ∈ chopCR l, c ∈ l := by
  intro c hc
  unfold chopCR at hc
  by_cases h : l.getLast? = some '\r'
  · rw [if_pos h] at hc
    exact (List.dropLast_sublist l).mem hc
  · rwa [if_neg h] at hc

theorem chopCR_no_cr {l : Str} (h : '\r' ∉ l) : chopCR l = l := by
  unfold chopCR
  rw [if_neg]
  intro h0
  exact h (List.mem_of_getLast?_eq_some h0)

theorem mem_splitNL_subset {s : Str} : ∀ l ∈ splitNL s, ∀ c ∈ l, c ∈ s := by
  induction s with
  | nil =>
    intro l hl c hc
    rw [splitNL] at hl
    simp at hl
    subst hl
    simp at hc
  | cons d t ih =>
    intro l hl c hc
    by_cases h : d = '\n'
    · rw [splitNL, if_pos h] at hl
      rcases List.mem_cons.mp hl with h1 | h1
      · subst h1; simp at hc
      · exact List.mem_cons_of_mem _ (ih l h1 c hc)
    · rw [splitNL, if_neg h] at hl
      rcases he : splitNL t with _ | ⟨l0, ls⟩
      · exact absurd he (splitNL_ne_nil t)
      · rw [he, consHead] at hl
        rcases List.mem_cons.mp hl with h1 | h1
        · subst h1
          rcases List.mem_cons.mp hc with h2 | h2
          · subst h2; exact List.mem_cons_self _ _
          · exact List.mem_cons_of_mem _ (ih l0 (he ▸ List.mem_cons_self _ _) c h2)
        · exact List.mem_cons_of_mem _ (ih l (he ▸ List.mem_cons_of_mem _ h1) c hc)

theorem mem_splitLines_subset {s : Str} : ∀ l ∈ splitLines s, ∀ c ∈ l, c ∈ s := by
  intro l hl c hc
  rw [splitLines_eq_pieces] at hl
  rcases List.mem_append.mp hl with h1 | h1
  · rcases List.mem_map.mp h1 with ⟨l0, hl0, rfl⟩
    exact mem_splitNL_subset l0 ((List.dropLast_sublist _).mem hl0) c (chopCR_subset c hc)
  · have : l = (splitNL s).getLast (splitNL_ne_nil s) := by simpa using h1
    subst this
    exact mem_splitNL_subset _ (List.getLast_mem _) c hc

theorem mem_splitLines_no_nl {s : Str} : ∀ l ∈ splitLines s, '\n' ∉ l := by
  intro l hl hc
  rw [splitLines_eq_pieces] at hl
  rcases List.mem_append.mp hl with h1 | h1
  · rcases List.mem_map.mp h1 with ⟨l0, hl0, rfl⟩
    exact mem_splitNL_no_nl l0 ((List.dropLast_sublist _).mem hl0) (chopCR_subset _ hc)
  · have : l = (splitNL s).getLast (splitNL_ne_nil s) := by simpa using h1
    subst this
    exact mem_splitNL_no_nl _ (List.getLast_mem _) hc

theorem splitLines_no_cr {s : Str} (h : '\r' ∉ s) : splitLines s = splitNL s := by
  rw [splitLines_eq_pieces]
  have hmap : (splitNL s).dropLast.map chopCR = (splitNL s).dropLast := by
    have hcongr : ∀ l ∈ (splitNL s).dropLast, chopCR l = l := fun l hl =>
      chopCR_no_cr fun hc =>
        h (mem_splitNL_subset l ((List.dropLast_sublist _).mem hl) _ hc)
    calc (splitNL s).dropLast.map chopCR = (splitNL s).dropLast.map id :=
          List.map_congr_left hcongr
      _ = (splitNL s).dropLast := List.map_id _
  rw [hmap]
  exact List.dropLast_append_getLast _

/-! ### mapHead and mapLast -/

theorem mapHead_cons (f : Str → Str) (l : Str) (ls : List Str) :
    mapHead f (l :: ls) = f l :: ls := rfl

theorem mapLast_cons (f : Str → Str) {l : Str} {ls : List Str} (h : ls ≠ []) :
    mapLast f (l :: ls) = l :: mapLast f ls := by
  cases ls with
  | nil => exact absurd rfl h
  | cons l0 ls0 => rfl

theorem mapLast_append (f : Str → Str) (a : List Str) {b : List Str} (h : b ≠ []) :
    mapLast f (a ++ b) = a ++ mapLast f b := by
  induction a with
  | nil => rfl
  | cons l a' ih =>
    have : a' ++ b ≠ [] := by
      cases b with
      | nil => exact absurd rfl h
      | cons b0 bs => simp
    rw [List.cons_append, mapLast_cons f this, ih]
    rfl

theorem mapLast_ne_nil (f : Str → Str) {ls : List Str} (h : ls ≠ []) : mapLast f ls ≠ [] := by
  cases ls with
  | nil => exact absurd rfl h
  | cons l ls' => cases ls' <;> simp [mapLast]

theorem mapHead_ne_nil (f : Str → Str) {ls : List Str} (h : ls ≠ []) : mapHead f ls ≠ [] := by
  cases ls with
  | nil => exact absurd rfl h
  | cons l ls' => simp [mapHead]

theorem mapLast_eq_self {f : Str → Str} {ls : List Str}
    (h : ∀ hne : ls ≠ [], f (ls.getLast hne) = ls.getLast hne) : mapLast f ls = ls := by
  induction ls with
  | nil => rfl
  | cons l ls' ih =>
    cases ls' with
    | nil =>
      show [f l] = [l]
      have hfl := h (by simp)
      simp only [List.getLast_singleton] at hfl
      rw [hfl]
    | cons l0 ls0 =>
      rw [mapLast_cons f (by simp), ih]
      intro hne
      have := h (by simp)
      rwa [List.getLast_cons hne] at this

theorem mapHead_eq_self {f : Str → Str} {ls : List Str}
    (h : ∀ hne : ls ≠ [], f (ls.head hne) = ls.head hne) : mapHead f ls = ls := by
  cases ls with
  | nil => rfl
  | cons l ls' =>
    show f l :: ls' = l :: ls'
    have hfl := h (by simp)
    simp only [List.head_cons] at hfl
    rw [hfl]

/-! ### The sort order -/

theorem unitsLeB_cons_iff {a b : Nat} {as bs : List Nat} :
    unitsLeB (a :: as) (b :: bs) = true ↔ a < b ∨ (a = b ∧ unitsLeB as bs = true) := by
  by_cases h : a < b
  · simp [unitsLeB, h]
  · by_cases h2 : b < a
    · simp only [unitsLeB, if_neg h, if_pos h2]
      constructor
      · intro hx; exact absurd hx (by simp)
      · intro hx
        rcases hx with hx | ⟨hx, _⟩
        · exact absurd hx h
        · omega
    · have hab : a = b := by omega
      simp [unitsLeB, h, h2, hab]

theorem unitsLeB_total (u v : List Nat) : unitsLeB u v = true ∨ unitsLeB v u = true := by
  induction u generalizing v with
  | nil => left; rfl
  | cons a as ih =>
    cases v with
    | nil => right; rfl
    | cons b bs =>
      rcases Nat.lt_trichotomy a b with h | h | h
      · left; exact unitsLeB_cons_iff.mpr (Or.inl h)
      · subst h
        rcases ih bs with h1 | h1
        · left; exact unitsLeB_cons_iff.mpr (Or.inr ⟨rfl, h1⟩)
        · right; exact unitsLeB_cons_iff.mpr (Or.inr ⟨rfl, h1⟩)
      · right; exact unitsLeB_cons_iff.mpr (Or.inl h)

theorem unitsLeB_trans {u v w : List Nat} (h1 : unitsLeB u v = true)
    (h2 : unitsLeB v w = true) : unitsLeB u w = true := by
  induction u generalizing v w with
  | nil => rfl
  | cons a as ih =>
    cases v with
    | nil => simp [unitsLeB] at h1
    | cons b bs =>
      cases w with
      | nil => simp [unitsLeB] at h2
      | cons c cs =>
        rcases unitsLeB_cons_iff.mp h1 with hab | ⟨hab, htab⟩ <;>
          rcases unitsLeB_cons_iff.mp h2 with hbc | ⟨hbc, htbc⟩
        · exact unitsLeB_cons_iff.mpr (Or.inl (Nat.lt_trans hab hbc))
        · exact unitsLeB_cons_iff.mpr (Or.inl (hbc ▸ hab))
        · exact unitsLeB_cons_iff.mpr (Or.inl (hab ▸ hbc))
        · exact unitsLeB_cons_iff.mpr (Or.inr ⟨hab.trans hbc, ih htab htbc⟩)

theorem unitsLeB_antisymm {u v : List Nat} (h1 : unitsLeB u v = true)
    (h2 : unitsLeB v u = true) : u = v := by
  induction u generalizing v with
  | nil =>
    cases v with
    | nil => rfl
    | cons b bs => simp [unitsLeB] at h2
  | cons a as ih =>
    cases v with
    | nil => simp [unitsLeB] at h1
    | cons b bs =>
      rcases unitsLeB_cons_iff.mp h1 with hab | ⟨hab, htab⟩ <;>
        rcases unitsLeB_cons_iff.mp h2 with hba | ⟨hba, htba⟩
      · omega
      · omega
      · omega
      · rw [hab, ih htab htba]

theorem char_valid_range (c : Char) :
    c.toNat < 0xD800 ∨ (0xDFFF < c.toNat ∧ c.toNat < 0x110000) := c.valid

theorem char_toNat_inj {c d : Char} (h : c.toNat = d.toNat) : c = d := by
  have hv : c.val = d.val := UInt32.toNat.inj h
  cases c with
  | mk v p =>
    cases d with
    | mk w q =>
      simp only at hv
      subst hv
      rfl

theorem utf16Units_ne_nil (c : Char) : utf16Units c ≠ [] := by
  unfold utf16Units
  by_cases h : c.toNat < 0x10000 <;> simp [h]

theorem utf16_prefix_inj {c d : Char} {r s : List Nat}
    (h : utf16Units c ++ r = utf16Units d ++ s) : c = d ∧ r = s := by
  have hc := char_valid_range c
  have hd := char_valid_range d
  unfold utf16Units at h
  by_cases h1 : c.toNat < 0x10000 <;> by_cases h2 : d.toNat < 0x10000
  · rw [if_pos h1, if_pos h2] at h
    simp only [List.cons_append, List.nil_append, List.cons.injEq] at h
    exact ⟨char_toNat_inj h.1, h.2⟩
  · rw [if_pos h1, if_neg h2] at h
    simp only [List.cons_append, List.nil_append, List.cons.injEq] at h
    exfalso
    have he := h.1
    omega
  · rw [if_neg h1, if_pos h2] at h
    simp only [List.cons_append, List.nil_append, List.cons.injEq] at h
    exfalso
    have he := h.1
    omega
  · rw [if_neg h1, if_neg h2] at h
    simp only [List.cons_append, List.nil_append, List.cons.injEq] at h
    obtain ⟨he1, he2, hr⟩ := h
    have : c.toNat = d.toNat := by omega
    exact ⟨char_toNat_inj this, hr⟩

theorem units_nil : units [] = [] := rfl

theorem units_cons (c : Char) (s : Str) : units (c :: s) = utf16Units c ++ units s := by
  simp [units]

theorem units_inj : ∀ {a b : Str}, units a = units b → a = b := by
  intro a
  induction a with
  | nil =>
    intro b h
    cases b with
    | nil => rfl
    | cons d bs =>
      rw [units_nil, units_cons] at h
      exact absurd h.symm (by simp [utf16Units_ne_nil d])
  | cons c as ih =>
    intro b h
    cases b with
    | nil =>
      rw [units_nil, units_cons] at h
      exact absurd h (by simp [utf16Units_ne_nil c])
    | cons d bs =>
      rw [units_cons, units_cons] at h
      obtain ⟨hcd, hrs⟩ := utf16_prefix_inj h
      rw [hcd, ih hrs]

instance : IsTotal Str jsLE := ⟨fun a b => unitsLeB_total (units a) (units b)⟩

instance : IsTrans Str jsLE := ⟨fun _ _ _ h1 h2 => unitsLeB_trans h1 h2⟩

instance : IsAntisymm Str jsLE := ⟨fun _ _ h1 h2 => units_inj (unitsLeB_antisymm h1 h2)⟩

/-! ### Deduplication -/

theorem mem_dedupAux {x : Str} : ∀ (l seen : List Str),
    x ∈ dedupAux l seen ↔ x ∈ l ∧ x ∉ seen := by
  intro l
  induction l with
  | nil => intro seen; simp [dedupAux]
  | cons y ys ih =>
    intro seen
    by_cases h : y ∈ seen
    · rw [dedupAux, if_pos h, ih]
      constructor
      · rintro ⟨h1, h2⟩
        exact ⟨List.mem_cons_of_mem _ h1, h2⟩
      · rintro ⟨h1, h2⟩
        rcases List.mem_cons.mp h1 with h3 | h3
        · exact absurd (h3 ▸ h) h2
        · exact ⟨h3, h2⟩
    · rw [dedupAux, if_neg h]
      constructor
      · intro h1
        rcases List.mem_cons.mp h1 with h3 | h3
        · exact ⟨h3 ▸ List.mem_cons_self _ _, h3 ▸ h⟩
        · obtain ⟨h4, h5⟩ := (ih (y :: seen)).mp h3
          exact ⟨List.mem_cons_of_mem _ h4,
            fun hx => h5 (List.mem_cons_of_mem _ hx)⟩
      · rintro ⟨h1, h2⟩
        rcases List.mem_cons.mp h1 with h3 | h3
        · exact h3 ▸ List.mem_cons_self _ _
        · by_cases hxy : x = y
          · exact hxy ▸ List.mem_cons_self _ _
          · exact List.mem_cons_of_mem _ ((ih (y :: seen)).mpr
              ⟨h3, fun hx => (List.mem_cons.mp hx).elim hxy h2⟩)

theorem dedupAux_nodup : ∀ (l seen : List Str), (dedupAux l seen).Nodup := by
  intro l
  induction l with
  | nil => intro seen; simp [dedupAux]
  | cons y ys ih =>
    intro seen
    by_cases h : y ∈ seen
    · rw [dedupAux, if_pos h]; exact ih seen
    · rw [dedupAux, if_neg h]
      refine List.nodup_cons.mpr ⟨fun hy => ?_, ih _⟩
      exact ((mem_dedupAux ys (y :: seen)).mp hy).2 (List.mem_cons_self _ _)

theorem dedupAux_eq_self : ∀ (l seen : List Str), l.Nodup → (∀ x ∈ l, x ∉ seen) →
    dedupAux l seen = l := by
  intro l
  induction l with
  | nil => intro seen _ _; rfl
  | cons y ys ih =>
    intro seen hnd hdisj
    rw [dedupAux, if_neg (hdisj y (List.mem_cons_self _ _))]
    congr 1
    apply ih _ (List.nodup_cons.mp hnd).2
    intro x hx hmem
    rcases List.mem_cons.mp hmem with h1 | h1
    · exact (List.nodup_cons.mp hnd).1 (h1 ▸ hx)
    · exact hdisj x (List.mem_cons_of_mem _ hx) h1

theorem mem_setDedup {x : Str} {l : List Str} : x ∈ setDedup l ↔ x ∈ l := by
  rw [setDedup, mem_dedupAux]
  simp

theorem setDedup_nodup (l : List Str) : (setDedup l).Nodup := dedupAux_nodup l []

theorem setDedup_eq_self {l : List Str} (h : l.Nodup) : setDedup l = l :=
  dedupAux_eq_self l [] h (by simp)

/-! ### uniqueRules -/

theorem mem_uniqueRules {x : Str} {sec : Section} :
    x ∈ uniqueRules sec ↔ x ∈ sec.rules := by
  rw [uniqueRules, List.mem_insertionSort, mem_setDedup]

theorem uniqueRules_nodup (sec : Section) : (uniqueRules sec).Nodup :=
  (List.perm_insertionSort jsLE _).nodup_iff.mpr (setDedup_nodup _)

theorem uniqueRules_sorted (sec : Section) : (uniqueRules sec).Sorted jsLE :=
  List.sorted_insertionSort jsLE _

theorem uniqueRules_ne_nil {sec : Section} (h : sec.rules ≠ []) : uniqueRules sec ≠ [] := by
  cases hr : sec.rules with
  | nil => exact absurd hr h
  | cons r rs =>
    exact List.ne_nil_of_mem (mem_uniqueRules.mpr (hr ▸ List.mem_cons_self _ _))

theorem uniqueRules_nil {sec : Section} (h : sec.rules = []) : uniqueRules sec = [] := by
  rw [uniqueRules, h]
  rfl

theorem uniqueRules_canon (cc : List Str) (sec : Section) :
    uniqueRules ⟨cc, uniqueRules sec⟩ = uniqueRules sec := by
  show List.insertionSort jsLE (setDedup (uniqueRules sec)) = uniqueRules sec
  rw [setDedup_eq_self (uniqueRules_nodup sec)]
  exact (uniqueRules_sorted sec).insertionSort_eq

/-! ### flatCollect -/

theorem contains_iff_mem {l : List Str} {a : Str} : l.contains a = true ↔ a ∈ l := by
  induction l with
  | nil => simp
  | cons b bs ih =>
    rw [List.contains_cons]
    constructor
    · intro h
      simp only [Bool.or_eq_true] at h
      rcases h with h1 | h1
      · exact List.mem_cons.mpr (Or.inl (beq_iff_eq.mp h1))
      · exact List.mem_cons.mpr (Or.inr (ih.mp h1))
    · intro h
      simp only [Bool.or_eq_true]
      rcases List.mem_cons.mp h with h1 | h1
      · exact Or.inl (beq_iff_eq.mpr h1)
      · exact Or.inr (ih.mpr h1)

theorem flatCollect_cons_pos {l : Str} {ls seen : List Str} (h1 : trim l ≠ [])
    (h2 : startsWithHash (trim l) = false) (h3 : trim l ∉ seen) :
    flatCollect (l :: ls) seen = trim l :: flatCollect ls (trim l :: seen) := by
  rw [flatCollect]
  rw [if_pos]
  simp only [Bool.and_eq_true, Bool.not_eq_true']
  refine ⟨⟨by simpa [List.isEmpty_iff] using h1, h2⟩, ?_⟩
  rcases hc : seen.contains (trim l) with _ | _
  · rfl
  · exact absurd (contains_iff_mem.mp hc) h3

theorem flatCollect_cons_neg {l : Str} {ls seen : List Str}
    (h : trim l = [] ∨ startsWithHash (trim l) = true ∨ trim l ∈ seen) :
    flatCollect (l :: ls) seen = flatCollect ls seen := by
  rw [flatCollect]
  rw [if_neg]
  intro hcond
  simp only [Bool.and_eq_true, Bool.not_eq_true'] at hcond
  obtain ⟨⟨hne, hhash⟩, hseen⟩ := hcond
  rcases h with h | h | h
  · rw [h] at hne; simp at hne
  · rw [h] at hhash; simp at hhash
  · rw [contains_iff_mem.mpr h] at hseen; simp at hseen

theorem mem_flatCollect {t : Str} : ∀ (ls seen : List Str),
    t ∈ flatCollect ls seen ↔
      t ∉ seen ∧ (∃ l0 ∈ ls, trim l0 = t) ∧ t ≠ [] ∧ startsWithHash t = false := by
  intro ls
  induction ls with
  | nil => intro seen; simp [flatCollect]
  | cons l ls' ih =>
    intro seen
    have hsplit : ∀ q : Str → Prop, (∃ l0 ∈ l :: ls', q l0) ↔ q l ∨ ∃ l0 ∈ ls', q l0 := by
      intro q
      constructor
      · rintro ⟨x, hx, hq⟩
        rcases List.mem_cons.mp hx with rfl | hx'
        · exact Or.inl hq
        · exact Or.inr ⟨x, hx', hq⟩
      · rintro (hq | ⟨x, hx, hq⟩)
        · exact ⟨l, List.mem_cons_self _ _, hq⟩
        · exact ⟨x, List.mem_cons_of_mem _ hx, hq⟩
    by_cases h1 : trim l = []
    · rw [flatCollect_cons_neg (Or.inl h1), ih]
      constructor
      · rintro ⟨ha, hb, hc, hd⟩
        exact ⟨ha, (hsplit _).mpr (Or.inr hb), hc, hd⟩
      · rintro ⟨ha, hb, hc, hd⟩
        refine ⟨ha, ?_, hc, hd⟩
        rcases (hsplit _).mp hb with h2 | h2
        · exact absurd (h2 ▸ h1) hc
        · exact h2
    · by_cases h2 : startsWithHash (trim l) = true
      · rw [flatCollect_cons_neg (Or.inr (Or.inl h2)), ih]
        constructor
        · rintro ⟨ha, hb, hc, hd⟩
          exact ⟨ha, (hsplit _).mpr (Or.inr hb), hc, hd⟩
        · rintro ⟨ha, hb, hc, hd⟩
          refine ⟨ha, ?_, hc, hd⟩
          rcases (hsplit _).mp hb with h3 | h3
          · rw [← h3] at hd
            exact absurd h2 (by simp [hd])
          · exact h3
      · have h2' : startsWithHash (trim l) = false := by simpa using h2
        by_cases h3 : trim l ∈ seen
        · rw [flatCollect_cons_neg (Or.inr (Or.inr h3)), ih]
          constructor
          · rintro ⟨ha, hb, hc, hd⟩
            exact ⟨ha, (hsplit _).mpr (Or.inr hb), hc, hd⟩
          · rintro ⟨ha, hb, hc, hd⟩
            refine ⟨ha, ?_, hc, hd⟩
            rcases (hsplit _).mp hb with h4 | h4
            · exact absurd (h4 ▸ h3) ha
            · exact h4
        · rw [flatCollect_cons_pos h1 h2' h3]
          constructor
          · intro hmem
            rcases List.mem_cons.mp hmem with h4 | h4
            · exact ⟨h4 ▸ h3, (hsplit _).mpr (Or.inl h4.symm), h4 ▸ h1, h4 ▸ h2'⟩
            · obtain ⟨ha, hb, hc, hd⟩ := (ih _).mp h4
              exact ⟨fun hx => ha (List.mem_cons_of_mem _ hx),
                (hsplit _).mpr (Or.inr hb), hc, hd⟩
          · rintro ⟨ha, hb, hc, hd⟩
            by_cases h5 : t = trim l
            · exact h5 ▸ List.mem_cons_self _ _
            · apply List.mem_cons_of_mem
              apply (ih _).mpr
              refine ⟨?_, ?_, hc, hd⟩
              · intro hx
                rcases List.mem_cons.mp hx with h6 | h6
                · exact h5 h6
                · exact ha h6
              · rcases (hsplit _).mp hb with h6 | h6
                · exact absurd h6.symm h5
                · exact h6

theorem flatCollect_nodup : ∀ (ls seen : List Str), (flatCollect ls seen).Nodup := by
  intro ls
  induction ls with
  | nil => intro seen; simp [flatCollect]
  | cons l ls' ih =>
    intro seen
    by_cases h1 : trim l = []
    · rw [flatCollect_cons_neg (Or.inl h1)]; exact ih seen
    · by_cases h2 : startsWithHash (trim l) = true
      · rw [flatCollect_cons_neg (Or.inr (Or.inl h2))]; exact ih seen
      · by_cases h3 : trim l ∈ seen
        · rw [flatCollect_cons_neg (Or.inr (Or.inr h3))]; exact ih seen
        · rw [flatCollect_cons_pos h1 (by simpa using h2) h3]
          refine List.nodup_cons.mpr ⟨fun hmem => ?_, ih _⟩
          exact ((mem_flatCollect _ _).mp hmem).1 (List.mem_cons_self _ _)

/-! ### The Smart-mode parser -/

theorem startsWithHash_ne_nil {t : Str} (h : startsWithHash t = true) : t ≠ [] := by
  intro h0
  rw [h0] at h
  simp [startsWithHash] at h

theorem parseLines_nil_pos {cur : Section} (h : cur.comments ≠ [] ∨ cur.rules ≠ []) :
    parseLines [] cur = [cur] := by
  rw [parseLines, if_pos]
  simpa [List.length_pos] using h

theorem parseLines_nil_neg {cur : Section} (hc : cur.comments = []) (hr : cur.rules = []) :
    parseLines [] cur = [] := by
  rw [parseLines, if_neg]
  simp [hc, hr]

theorem parseLines_blank_pos {l : Str} (h : trim l = []) {cur : Section}
    (hne : cur.comments ≠ [] ∨ cur.rules ≠ []) (ls : List Str) :
    parseLines (l :: ls) cur = cur :: parseLines ls ⟨[], []⟩ := by
  simp only [parseLines, h, List.isEmpty_nil, if_true]
  rw [if_pos]
  simpa [List.length_pos] using hne

theorem parseLines_blank_neg {l : Str} (h : trim l = []) {cur : Section}
    (hc : cur.comments = []) (hr : cur.rules = []) (ls : List Str) :
    parseLines (l :: ls) cur = parseLines ls cur := by
  simp only [parseLines, h, List.isEmpty_nil, if_true]
  rw [if_neg]
  simp [hc, hr]

theorem parseLines_comment_flush {l : Str} (h1 : startsWithHash (trim l) = true)
    {cur : Section} (h2 : cur.rules ≠ []) (ls : List Str) :
    parseLines (l :: ls) cur = cur :: parseLines ls ⟨[l], []⟩ := by
  have hne : ¬(trim l).isEmpty = true := by
    simpa [List.isEmpty_iff] using startsWithHash_ne_nil h1
  simp only [parseLines, if_neg hne, h1, if_true]
  rw [if_pos]
  simpa [List.length_pos] using h2

theorem parseLines_comment_app {l : Str} (h1 : startsWithHash (trim l) = true)
    {cur : Section} (h2 : cur.rules = []) (ls : List Str) :
    parseLines (l :: ls) cur = parseLines ls ⟨cur.comments ++ [l], cur.rules⟩ := by
  have hne : ¬(trim l).isEmpty = true := by
    simpa [List.isEmpty_iff] using startsWithHash_ne_nil h1
  simp only [parseLines, if_neg hne, h1, if_true]
  rw [if_neg]
  simp [h2]

theorem parseLines_rule {l : Str} (h1 : trim l ≠ [])
    (h2 : startsWithHash (trim l) = false) (ls : List Str) (cur : Section) :
    parseLines (l :: ls) cur = parseLines ls ⟨cur.comments, cur.rules ++ [trim l]⟩ := by
  have hne : ¬(trim l).isEmpty = true := by simpa [List.isEmpty_iff] using h1
  simp only [parseLines, if_neg hne, h2, Bool.false_eq_true, if_false]

theorem parse_rules_flatten : ∀ (ls : List Str) (cur : Section),
    ((parseLines ls cur).map Section.rules).flatten =
      cur.rules ++ (ls.map trim).filter (fun t => !t.isEmpty && !startsWithHash t) := by
  intro ls
  induction ls with
  | nil =>
    intro cur
    by_cases hne : cur.comments ≠ [] ∨ cur.rules ≠ []
    · rw [parseLines_nil_pos hne]; simp
    · push_neg at hne
      rw [parseLines_nil_neg hne.1 hne.2]
      simp [hne.2]
  | cons l ls' ih =>
    intro cur
    by_cases h1 : trim l = []
    · have hf : List.filter (fun t => !t.isEmpty && !startsWithHash t)
          ((l :: ls').map trim) = List.filter (fun t => !t.isEmpty && !startsWithHash t)
          (ls'.map trim) := by
        simp [List.filter_cons, h1]
      by_cases hne : cur.comments ≠ [] ∨ cur.rules ≠ []
      · rw [parseLines_blank_pos h1 hne, hf]
        simp only [List.map_cons, List.flatten_cons, ih]
        simp
      · push_neg at hne
        rw [parseLines_blank_neg h1 hne.1 hne.2, hf, ih]
    · by_cases h2 : startsWithHash (trim l) = true
      · have hf : List.filter (fun t => !t.isEmpty && !startsWithHash t)
            ((l :: ls').map trim) = List.filter (fun t => !t.isEmpty && !startsWithHash t)
            (ls'.map trim) := by
          simp [List.filter_cons, h2]
        by_cases h3 : cur.rules = []
        · rw [parseLines_comment_app h2 h3, hf, ih]
        · rw [parseLines_comment_flush h2 h3, hf]
          simp only [List.map_cons, List.flatten_cons, ih]
          simp
      · have h2' : startsWithHash (trim l) = false := by simpa using h2
        have hf : List.filter (fun t => !t.isEmpty && !startsWithHash t)
            ((l :: ls').map trim) = trim l :: List.filter
            (fun t => !t.isEmpty && !startsWithHash t) (ls'.map trim) := by
          simp [List.filter_cons, h2', List.isEmpty_iff, h1]
        rw [parseLines_rule h1 h2', hf, ih]
        simp

theorem parse_comments_flatten : ∀ (ls : List Str) (cur : Section),
    ((parseLines ls cur).map Section.comments).flatten =
      cur.comments ++ ls.filter isCommentLineB := by
  intro ls
  induction ls with
  | nil =>
    intro cur
    by_cases hne : cur.comments ≠ [] ∨ cur.rules ≠ []
    · rw [parseLines_nil_pos hne]; simp
    · push_neg at hne
      rw [parseLines_nil_neg hne.1 hne.2]
      simp [hne.1]
  | cons l ls' ih =>
    intro cur
    by_cases h1 : trim l = []
    · have hf : List.filter isCommentLineB (l :: ls') = List.filter isCommentLineB ls' := by
        simp [List.filter_cons, isCommentLineB, h1, startsWithHash]
      by_cases hne : cur.comments ≠ [] ∨ cur.rules ≠ []
      · rw [parseLines_blank_pos h1 hne, hf]
        simp only [List.map_cons, List.flatten_cons, ih]
        simp
      · push_neg at hne
        rw [parseLines_blank_neg h1 hne.1 hne.2, hf, ih]
    · by_cases h2 : startsWithHash (trim l) = true
      · have hf : List.filter isCommentLineB (l :: ls') =
            l :: List.filter isCommentLineB ls' := by
          simp [List.filter_cons, isCommentLineB, h2]
        by_cases h3 : cur.rules = []
        · rw [parseLines_comment_app h2 h3, hf, ih]
          simp
        · rw [parseLines_comment_flush h2 h3, hf]
          simp only [List.map_cons, List.flatten_cons, ih]
          simp
      · have h2' : startsWithHash (trim l) = false := by simpa using h2
        have hf : List.filter isCommentLineB (l :: ls') = List.filter isCommentLineB ls' := by
          simp [List.filter_cons, isCommentLineB, h2']
        rw [parseLines_rule h1 h2', hf, ih]

theorem parse_sections_nonempty : ∀ (ls : List Str) (cur : Section),
    ∀ sec ∈ parseLines ls cur, sec.comments ≠ [] ∨ sec.rules ≠ [] := by
  intro ls
  induction ls with
  | nil =>
    intro cur sec hsec
    by_cases hne : cur.comments ≠ [] ∨ cur.rules ≠ []
    · rw [parseLines_nil_pos hne] at hsec
      have : sec = cur := by simpa using hsec
      exact this ▸ hne
    · push_neg at hne
      rw [parseLines_nil_neg hne.1 hne.2] at hsec
      simp at hsec
  | cons l ls' ih =>
    intro cur sec hsec
    by_cases h1 : trim l = []
    · by_cases hne : cur.comments ≠ [] ∨ cur.rules ≠ []
      · rw [parseLines_blank_pos h1 hne] at hsec
        rcases List.mem_cons.mp hsec with h2 | h2
        · exact h2 ▸ hne
        · exact ih _ sec h2
      · push_neg at hne
        rw [parseLines_blank_neg h1 hne.1 hne.2] at hsec
        exact ih _ sec hsec
    · by_cases h2 : startsWithHash (trim l) = true
      · by_cases h3 : cur.rules = []
        · rw [parseLines_comment_app h2 h3] at hsec
          exact ih _ sec hsec
        · rw [parseLines_comment_flush h2 h3] at hsec
          rcases List.mem_cons.mp hsec with h4 | h4
          · exact h4 ▸ Or.inr h3
          · exact ih _ sec h4
      · have h2' : startsWithHash (trim l) = false := by simpa using h2
        rw [parseLines_rule h1 h2'] at hsec
        exact ih _ sec hsec

/-! ### Rendering -/

theorem rtrim_lineJoin : ∀ {ls : List Str}, ls ≠ [] →
    (∀ l0, ls.getLast? = some l0 → rtrim l0 ≠ []) →
    rtrim (lineJoin ls) = lineJoin (mapLast rtrim ls) ∧ rtrim (lineJoin ls) ≠ [] := by
  intro ls
  induction ls with
  | nil => intro h; exact absurd rfl h
  | cons l ls' ih =>
    intro _ hlast
    cases ls' with
    | nil =>
      have hl : rtrim l ≠ [] := hlast l rfl
      exact ⟨rfl, hl⟩
    | cons l0 ls0 =>
      have h0 : l0 :: ls0 ≠ [] := by simp
      have hlast' : ∀ y, (l0 :: ls0).getLast? = some y → rtrim y ≠ [] := by
        intro y hy
        exact hlast y (by rw [List.getLast?_cons_cons]; exact hy)
      obtain ⟨ih1, ih2⟩ := ih h0 hlast'
      rw [lineJoin_cons h0]
      have hne : rtrim ('
' :: lineJoin (l0 :: ls0)) ≠ [] := by
        rw [rtrim_cons_of_ne ih2]; simp
      constructor
      · rw [rtrim_append_of_ne l hne, rtrim_cons_of_ne ih2, ih1,
          mapLast_cons rtrim h0, lineJoin_cons (mapLast_ne_nil rtrim h0)]
      · rw [rtrim_append_of_ne l hne]
        simp [rtrim_cons_of_ne ih2]

theorem ltrim_lineJoin {ls : List Str} (h : ls ≠ [])
    (hh : ∀ l0, ls.head? = some l0 → ltrim l0 ≠ []) :
    ltrim (lineJoin ls) = lineJoin (mapHead ltrim ls) := by
  cases ls with
  | nil => exact absurd rfl h
  | cons l ls' =>
    have hl : ltrim l ≠ [] := hh l rfl
    cases ls' with
    | nil => rfl
    | cons l0 ls0 =>
      rw [lineJoin_cons (show (l0 :: ls0 : List Str) ≠ [] by simp),
        ltrim_append_of_ne _ hl, mapHead_cons,
        lineJoin_cons (show (l0 :: ls0 : List Str) ≠ [] by simp)]

theorem mapLast_head? (f : Str → Str) {ls : List Str} {l0 l1 : Str}
    (h : (mapLast f ls).head? = some l0) (h2 : ls.head? = some l1) :
    l0 = l1 ∨ (l0 = f l1 ∧ ls = [l1]) := by
  cases ls with
  | nil => simp at h2
  | cons a as =>
    have ha : a = l1 := by simpa using h2
    subst ha
    cases as with
    | nil =>
      right
      refine ⟨?_, rfl⟩
      simpa [mapLast] using h.symm
    | cons b bs =>
      left
      rw [mapLast_cons f (by simp)] at h
      simpa using h.symm

theorem trim_lineJoin {ls : List Str} (h : ls ≠ [])
    (hh : ∀ l0, ls.head? = some l0 → trim l0 ≠ [])
    (hl : ∀ l0, ls.getLast? = some l0 → trim l0 ≠ []) :
    trim (lineJoin ls) = lineJoin (mapHead ltrim (mapLast rtrim ls)) := by
  have hrt : ∀ l0, ls.getLast? = some l0 → rtrim l0 ≠ [] := fun l0 h0 =>
    rtrim_ne_nil_of_trim (hl l0 h0)
  obtain ⟨h1, _⟩ := rtrim_lineJoin h hrt
  show ltrim (rtrim (lineJoin ls)) = _
  rw [h1]
  apply ltrim_lineJoin (mapLast_ne_nil rtrim h)
  intro l0 h0
  cases ls with
  | nil => exact absurd rfl h
  | cons a as =>
    have hh0 : (a :: as).head? = some a := rfl
    rcases mapLast_head? rtrim h0 hh0 with h2 | ⟨h2, h3⟩
    · rw [h2]
      exact ltrim_ne_nil_of_trim (hh a rfl)
    · rw [h2]
      exact hh a rfl

theorem goodRule_of_mem_uniqueRules {sec : Section} (hg : GoodSec sec) {r : Str}
    (hr : r ∈ uniqueRules sec) : goodRule r ∧ '
' ∉ r :=
  hg.2.1 r (mem_uniqueRules.mp hr)

theorem commentLine_trim_ne_nil {c : Str} (h : isCommentLineB c = true) : trim c ≠ [] :=
  startsWithHash_ne_nil h

theorem lineJoin_ne_nil_of_ne {ls : List Str} (h : ls ≠ []) (hne : ∀ l ∈ ls, l ≠ []) :
    lineJoin ls ≠ [] := by
  cases ls with
  | nil => exact absurd rfl h
  | cons l ls' =>
    cases ls' with
    | nil => exact hne l (by simp)
    | cons l0 ls0 =>
      rw [lineJoin_cons (by simp)]
      rcases hx : l with _ | ⟨c, cs⟩
      · simpa using hne l (by simp) hx
      · simp

theorem renderSection_eq {sec : Section} (hg : GoodSec sec) :
    renderSection sec = lineJoin (renderedLines sec) := by
  obtain ⟨hcom, hrul, hne⟩ := hg
  have hurgood : ∀ r ∈ uniqueRules sec, goodRule r := fun r hr =>
    (hrul r (mem_uniqueRules.mp hr)).1
  by_cases hcs : sec.comments = []
  · have hr : sec.rules ≠ [] := by
      rcases hne with h | h
      · exact absurd hcs h
      · exact h
    have hur : uniqueRules sec ≠ [] := uniqueRules_ne_nil hr
    have hbody : lineJoin (uniqueRules sec) ≠ [] :=
      lineJoin_ne_nil_of_ne hur (fun l hl => (hurgood l hl).2.1)
    rw [renderSection]
    simp only [hcs, List.length_nil, gt_iff_lt, Nat.lt_irrefl, if_false]
    rw [if_neg (by simpa [List.isEmpty_iff] using hbody)]
    rw [List.nil_append]
    rw [renderedLines, hcs, List.nil_append]
    apply trim_lineJoin hur
    · intro l0 h0
      have : l0 ∈ uniqueRules sec := List.mem_of_mem_head? h0
      rw [(hurgood l0 this).1]
      exact (hurgood l0 this).2.1
    · intro l0 h0
      have : l0 ∈ uniqueRules sec := List.mem_of_getLast?_eq_some h0
      rw [(hurgood l0 this).1]
      exact (hurgood l0 this).2.1
  · have hcpos : sec.comments.length > 0 := List.length_pos.mpr hcs
    have hhead : lineJoin sec.comments ++ ['
'] ≠ [] := by simp
    rw [renderSection]
    simp only [if_pos hcpos]
    rw [if_neg (by simpa [List.isEmpty_iff] using hhead)]
    by_cases hur : uniqueRules sec = []
    · rw [hur]
      show trim ((lineJoin sec.comments ++ ['
']) ++ lineJoin []) =
        lineJoin (renderedLines sec)
      rw [show lineJoin ([] : List Str) = [] from rfl, List.append_nil]
      have h1 : trim (lineJoin sec.comments ++ ['
']) = trim (lineJoin sec.comments) := by
        show ltrim (rtrim _) = ltrim (rtrim _)
        rw [rtrim_concat_of_ws (by decide)]
      rw [h1, renderedLines, hur, List.append_nil]
      apply trim_lineJoin hcs
      · intro l0 h0
        exact commentLine_trim_ne_nil (hcom l0 (List.mem_of_mem_head? h0)).1
      · intro l0 h0
        exact commentLine_trim_ne_nil (hcom l0 (List.mem_of_getLast?_eq_some h0)).1
    · have hbody : lineJoin (uniqueRules sec) ≠ [] :=
        lineJoin_ne_nil_of_ne hur (fun l hl => (hurgood l hl).2.1)
      show trim ((lineJoin sec.comments ++ ['
']) ++ lineJoin (uniqueRules sec)) =
        lineJoin (renderedLines sec)
      rw [List.append_assoc, List.singleton_append,
        ← lineJoin_append hcs hur, renderedLines]
      apply trim_lineJoin (by simp [hcs])
      · intro l0 h0
        rw [List.head?_append] at h0
        cases hc : sec.comments.head? with
        | none =>
          rw [List.head?_eq_none_iff] at hc
          exact absurd hc hcs
        | some c0 =>
          rw [hc] at h0
          have he : c0 = l0 := by simpa using h0
          subst he
          exact commentLine_trim_ne_nil (hcom c0 (List.mem_of_mem_head? hc)).1
      · intro l0 h0
        rw [List.getLast?_append] at h0
        cases hc : (uniqueRules sec).getLast? with
        | none =>
          rw [List.getLast?_eq_none_iff] at hc
          exact absurd hc hur
        | some r0 =>
          rw [hc] at h0
          have he : r0 = l0 := by simpa using h0
          subst he
          have hm : r0 ∈ uniqueRules sec := List.mem_of_getLast?_eq_some hc
          rw [(hurgood r0 hm).1]
          exact (hurgood r0 hm).2.1

theorem mapHead_append (f : Str → Str) {a : List Str} (b : List Str) (h : a ≠ []) :
    mapHead f (a ++ b) = mapHead f a ++ b := by
  cases a with
  | nil => exact absurd rfl h
  | cons l a' => rfl

theorem goodSec_of_parse {x : Str} {sec : Section} (hsec : sec ∈ parseSections x) :
    GoodSec sec := by
  refine ⟨?_, ?_, parse_sections_nonempty _ _ sec hsec⟩
  · intro c hc
    have hmem : c ∈ ((parseLines (splitLines x) ⟨[], []⟩).map Section.comments).flatten :=
      List.mem_flatten.mpr ⟨sec.comments, List.mem_map.mpr ⟨sec, hsec, rfl⟩, hc⟩
    rw [parse_comments_flatten] at hmem
    simp only [List.nil_append] at hmem
    have h2 := List.mem_filter.mp hmem
    exact ⟨h2.2, mem_splitLines_no_nl c h2.1⟩
  · intro r hr
    have hmem : r ∈ ((parseLines (splitLines x) ⟨[], []⟩).map Section.rules).flatten :=
      List.mem_flatten.mpr ⟨sec.rules, List.mem_map.mpr ⟨sec, hsec, rfl⟩, hr⟩
    rw [parse_rules_flatten] at hmem
    simp only [List.nil_append] at hmem
    have h2 := List.mem_filter.mp hmem
    obtain ⟨l, hl, hrl⟩ := List.mem_map.mp h2.1
    have hcond := h2.2
    simp only [Bool.and_eq_true, Bool.not_eq_true'] at hcond
    refine ⟨⟨?_, ?_, hcond.2⟩, ?_⟩
    · rw [← hrl]; exact trim_trim l
    · simpa [List.isEmpty_iff] using hcond.1
    · intro hc
      rw [← hrl] at hc
      exact mem_splitLines_no_nl l hl (trim_subset _ hc)

theorem mapLast_forall2 (g : Str → Str) :
    ∀ ls : List Str, List.Forall₂ (fun c c' => c' = c ∨ c' = g c) ls (mapLast g ls) := by
  intro ls
  induction ls with
  | nil => exact List.Forall₂.nil
  | cons x t ih =>
    cases t with
    | nil => exact List.Forall₂.cons (Or.inr rfl) List.Forall₂.nil
    | cons y t' =>
      rw [mapLast_cons g (by simp)]
      exact List.Forall₂.cons (Or.inl rfl) ih

/-- How a comment line may differ from its rendered form: at most an edge
trim at the start of the section and an edge trim at its end. -/
def commentRendered (c c' : Str) : Prop :=
  c' = c ∨ c' = ltrim c ∨ c' = rtrim c ∨ c' = trim c

theorem canonComments_rel (sec : Section) :
    List.Forall₂ commentRendered sec.comments (canonComments sec) := by
  rw [canonComments]
  by_cases hur : uniqueRules sec = []
  · rw [if_pos hur]
    cases hcs : sec.comments with
    | nil => exact List.Forall₂.nil
    | cons c cs =>
      cases cs with
      | nil =>
        refine List.Forall₂.cons ?_ List.Forall₂.nil
        right; right; right
        rfl
      | cons c0 cs0 =>
        rw [mapLast_cons rtrim (by simp), mapHead_cons]
        refine List.Forall₂.cons (Or.inr (Or.inl rfl)) ?_
        exact (mapLast_forall2 rtrim (c0 :: cs0)).imp
          (fun a b h => h.elim Or.inl (fun h2 => Or.inr (Or.inr (Or.inl h2))))
  · rw [if_neg hur]
    cases hcs : sec.comments with
    | nil => exact List.Forall₂.nil
    | cons c cs =>
      rw [mapHead_cons]
      refine List.Forall₂.cons (Or.inr (Or.inl rfl)) ?_
      exact List.forall₂_same.mpr (fun x _ => Or.inl rfl)

theorem renderedLines_eq {sec : Section} (hg : GoodSec sec) :
    renderedLines sec = canonComments sec ++ uniqueRules sec := by
  rw [renderedLines, canonComments]
  by_cases hur : uniqueRules sec = []
  · rw [if_pos hur, hur, List.append_nil, List.append_nil]
  · rw [if_neg hur, mapLast_append rtrim _ hur]
    have hml : mapLast rtrim (uniqueRules sec) = uniqueRules sec := by
      apply mapLast_eq_self
      intro hne
      exact trim_fix_rtrim
        (goodRule_of_mem_uniqueRules hg (List.getLast_mem hne)).1.1
    rw [hml]
    by_cases hcs : sec.comments = []
    · rw [hcs]
      show mapHead ltrim ([] ++ uniqueRules sec) = mapHead ltrim [] ++ uniqueRules sec
      rw [List.nil_append]
      show mapHead ltrim (uniqueRules sec) = uniqueRules sec
      apply mapHead_eq_self
      intro hne
      exact trim_fix_ltrim
        (goodRule_of_mem_uniqueRules hg (List.head_mem hne)).1.1
    · rw [mapHead_append ltrim _ hcs]

theorem renderedLines_ne_nil {sec : Section} (hg : GoodSec sec) :
    renderedLines sec ≠ [] := by
  rw [renderedLines_eq hg]
  rcases hg.2.2 with h | h
  · intro h0
    rcases List.append_eq_nil.mp h0 with ⟨h1, _⟩
    have := (canonComments_rel sec).length_eq
    rw [h1] at this
    simp at this
    exact h this
  · intro h0
    rcases List.append_eq_nil.mp h0 with ⟨_, h2⟩
    exact uniqueRules_ne_nil h h2

theorem forall2_mem_right {R : Str → Str → Prop} :
    ∀ {as bs : List Str}, List.Forall₂ R as bs → ∀ b ∈ bs, ∃ a ∈ as, R a b := by
  intro as bs h
  induction h with
  | nil => intro b hb; simp at hb
  | @cons a b as' bs' hr ht ih =>
    intro b0 hb0
    rcases List.mem_cons.mp hb0 with rfl | hb'
    · exact ⟨a, List.mem_cons_self _ _, hr⟩
    · obtain ⟨a0, ha0, har⟩ := ih b0 hb'
      exact ⟨a0, List.mem_cons_of_mem _ ha0, har⟩

theorem commentRendered_trim {c c' : Str} (h : commentRendered c c') : trim c' = trim c := by
  rcases h with rfl | rfl | rfl | rfl
  · rfl
  · exact trim_ltrim c
  · exact trim_rtrim c
  · exact trim_trim c

theorem mem_canonComments_trim {sec : Section} {c' : Str} (h : c' ∈ canonComments sec) :
    ∃ c ∈ sec.comments, trim c' = trim c := by
  obtain ⟨c, hc, hrel⟩ := forall2_mem_right (canonComments_rel sec) c' h
  exact ⟨c, hc, commentRendered_trim hrel⟩

/-! ### Flat mode -/

theorem organizeFlat_eq (x : Str) : organizeFlat x = lineJoin (flatRules x) ++ ['\n'] := rfl

theorem chopCR_of_trimmed {r : Str} (h : trim r = r) : chopCR r = r := by
  rw [chopCR, if_neg]
  intro h0
  have : jsWS '\r' = false := trim_getLast_not_ws (by rw [h]; exact h0)
  simp [jsWS] at this

theorem mem_flatRules {x r : Str} : r ∈ flatRules x ↔ r ∈ flatCollect (splitLines x) [] :=
  List.mem_insertionSort jsLE

theorem flatRules_good {x : Str} : ∀ r ∈ flatRules x,
    trim r = r ∧ r ≠ [] ∧ startsWithHash r = false ∧ '\n' ∉ r := by
  intro r hr
  obtain ⟨-, ⟨l0, hl0, hrl⟩, hne, hhash⟩ :=
    (mem_flatCollect (splitLines x) []).mp (mem_flatRules.mp hr)
  refine ⟨by rw [← hrl]; exact trim_trim l0, hne, hhash, ?_⟩
  intro hc
  rw [← hrl] at hc
  exact mem_splitLines_no_nl l0 hl0 (trim_subset _ hc)

theorem flatRules_sorted (x : Str) : (flatRules x).Sorted jsLE :=
  List.sorted_insertionSort jsLE _

theorem flatRules_nodup (x : Str) : (flatRules x).Nodup :=
  (List.perm_insertionSort jsLE _).nodup_iff.mpr (flatCollect_nodup _ _)

theorem splitLines_organizeFlat_pos {x : Str} (h : flatRules x ≠ []) :
    splitLines (organizeFlat x) = flatRules x ++ [[]] := by
  rw [organizeFlat_eq, splitLines_join h (fun l hl => (flatRules_good l hl).2.2.2)]
  congr 1
  calc (flatRules x).map chopCR = (flatRules x).map id :=
        List.map_congr_left (fun l hl => chopCR_of_trimmed (flatRules_good l hl).1)
    _ = flatRules x := List.map_id _

theorem flatRules_nil_out {x : Str} (h : flatRules x = []) : organizeFlat x = ['\n'] := by
  rw [organizeFlat_eq, h]
  rfl

theorem flatCollect_self : ∀ (rs seen : List Str), rs.Nodup →
    (∀ r ∈ rs, trim r = r ∧ r ≠ [] ∧ startsWithHash r = false) →
    (∀ r ∈ rs, r ∉ seen) →
    flatCollect (rs ++ [[]]) seen = rs := by
  intro rs
  induction rs with
  | nil =>
    intro seen _ _ _
    rw [List.nil_append, flatCollect_cons_neg (Or.inl (show trim ([] : Str) = [] from rfl))]
    rfl
  | cons r rs' ih =>
    intro seen hnd hgood hdisj
    obtain ⟨ht, hne, hhash⟩ := hgood r (List.mem_cons_self _ _)
    rw [List.cons_append, flatCollect_cons_pos (by rw [ht]; exact hne)
      (by rw [ht]; exact hhash) (by rw [ht]; exact hdisj r (List.mem_cons_self _ _)), ht]
    congr 1
    apply ih _ (List.nodup_cons.mp hnd).2 (fun a ha => hgood a (List.mem_cons_of_mem _ ha))
    intro a ha hmem
    rcases List.mem_cons.mp hmem with h1 | h1
    · exact (List.nodup_cons.mp hnd).1 (h1 ▸ ha)
    · exact hdisj a (List.mem_cons_of_mem _ ha) h1

theorem organizeFlat_idem (x : Str) : organizeFlat (organizeFlat x) = organizeFlat x := by
  by_cases h : flatRules x = []
  · rw [flatRules_nil_out h]
    decide
  · have hlines := splitLines_organizeFlat_pos h
    rw [organizeFlat_eq (organizeFlat x)]
    have hcoll : flatCollect (splitLines (organizeFlat x)) [] = flatRules x := by
      rw [hlines]
      exact flatCollect_self _ [] (flatRules_nodup x)
        (fun r hr => ⟨(flatRules_good r hr).1, (flatRules_good r hr).2.1,
          (flatRules_good r hr).2.2.1⟩) (by simp)
    show lineJoin (List.insertionSort jsLE (flatCollect (splitLines (organizeFlat x)) []))
        ++ ['\n'] = organizeFlat x
    rw [hcoll, (flatRules_sorted x).insertionSort_eq, organizeFlat_eq]

/-! ### Smart-mode output lines -/

theorem canonComments_commentB {sec : Section} {c' : Str} (h : c' ∈ canonComments sec)
    (hg : GoodSec sec) : isCommentLineB c' = true := by
  obtain ⟨c, hc, htrim⟩ := mem_canonComments_trim h
  show startsWithHash (trim c') = true
  rw [htrim]
  exact (hg.1 c hc).1

theorem mem_renderedLines_good {sec : Section} (hg : GoodSec sec) :
    ∀ l ∈ renderedLines sec, l ≠ [] ∧ '\n' ∉ l := by
  intro l hl
  rw [renderedLines_eq hg] at hl
  rcases List.mem_append.mp hl with h1 | h1
  · obtain ⟨c, hc, hrel⟩ := forall2_mem_right (canonComments_rel sec) l h1
    have htr : trim l = trim c := commentRendered_trim hrel
    constructor
    · intro h0
      have : trim c ≠ [] := commentLine_trim_ne_nil (hg.1 c hc).1
      rw [← htr, h0] at this
      exact this rfl
    · have hsub : ∀ a ∈ l, a ∈ c := by
        rcases hrel with rfl | rfl | rfl | rfl
        · exact fun a ha => ha
        · exact fun a ha => (ltrim_sublist c).mem ha
        · exact fun a ha => (rtrim_sublist c).mem ha
        · exact fun a ha => trim_subset a ha
      exact fun hnl => (hg.1 c hc).2 (hsub _ hnl)
  · have := (hg.2.1 l (mem_uniqueRules.mp h1))
    exact ⟨this.1.2.1, this.2⟩

theorem groupLines_cons {g : List Str} {gs : List (List Str)} (h : gs ≠ []) :
    groupLines (g :: gs) = g ++ [] :: groupLines gs := by
  cases gs with
  | nil => exact absurd rfl h
  | cons g0 gs0 => rfl

theorem mem_groupLines {l : Str} : ∀ {gs : List (List Str)},
    l ∈ groupLines gs ↔ l = [] ∧ gs.length ≥ 2 ∨ ∃ g ∈ gs, l ∈ g := by
  intro gs
  induction gs with
  | nil => simp [groupLines]
  | cons g gs' ih =>
    cases gs' with
    | nil =>
      show l ∈ g ↔ _
      constructor
      · intro h
        right
        exact ⟨g, List.mem_cons_self _ _, h⟩
      · intro h
        rcases h with ⟨_, h2⟩ | ⟨g', hg', hl'⟩
        · simp at h2
        · have he : g' = g := by simpa using hg'
          exact he ▸ hl' 
    | cons g0 gs0 =>
      rw [groupLines_cons (by simp)]
      constructor
      · intro h
        rcases List.mem_append.mp h with h1 | h1
        · right; exact ⟨g, List.mem_cons_self _ _, h1⟩
        · rcases List.mem_cons.mp h1 with h2 | h2
          · left; exact ⟨h2, by simp⟩
          · rcases ih.mp h2 with ⟨h3, h4⟩ | ⟨g', hg', hl'⟩
            · left; exact ⟨h3, by simp⟩
            · right; exact ⟨g', List.mem_cons_of_mem _ hg', hl'⟩
      · intro h
        rcases h with ⟨h1, _⟩ | ⟨g', hg', hl'⟩
        · exact List.mem_append.mpr (Or.inr (h1 ▸ List.mem_cons_self _ _))
        · rcases List.mem_cons.mp hg' with h2 | h2
          · exact List.mem_append.mpr (Or.inl (h2 ▸ hl'))
          · exact List.mem_append.mpr (Or.inr (List.mem_cons_of_mem _
              (ih.mpr (Or.inr ⟨g', h2, hl'⟩))))

theorem groupLines_ne_nil : ∀ {gs : List (List Str)}, gs ≠ [] →
    (∀ g ∈ gs, g ≠ []) → groupLines gs ≠ [] := by
  intro gs
  induction gs with
  | nil => intro h; exact absurd rfl h
  | cons g gs' ih =>
    intro _ hne
    cases gs' with
    | nil => exact hne g (by simp)
    | cons g0 gs0 =>
      rw [groupLines_cons (by simp)]
      intro h0
      rcases List.append_eq_nil.mp h0 with ⟨-, h2⟩
      simp at h2

theorem sectionJoin_map_lineJoin : ∀ {gs : List (List Str)}, (∀ g ∈ gs, g ≠ []) →
    sectionJoin (gs.map lineJoin) = lineJoin (groupLines gs) := by
  intro gs
  induction gs with
  | nil => intro _; rfl
  | cons g gs' ih =>
    intro hne
    cases gs' with
    | nil => rfl
    | cons g0 gs0 =>
      have h0 : (g0 :: gs0 : List (List Str)) ≠ [] := by simp
      have hgl : groupLines (g0 :: gs0) ≠ [] :=
        groupLines_ne_nil h0 (fun g' hg' => hne g' (List.mem_cons_of_mem _ hg'))
      show lineJoin g ++ '\n' :: '\n' :: sectionJoin ((g0 :: gs0).map lineJoin) =
        lineJoin (groupLines (g :: g0 :: gs0))
      rw [ih (fun g' hg' => hne g' (List.mem_cons_of_mem _ hg')),
        groupLines_cons (show (g0 :: gs0 : List (List Str)) ≠ [] by simp),
        lineJoin_append (hne g (List.mem_cons_self _ _)) (List.cons_ne_nil _ _),
        lineJoin_cons hgl]
      rfl

theorem organizeSmart_of_nil {x : Str} (h : parseSections x = []) :
    organizeSmart x = ['\n'] := by
  rw [organizeSmart, h]
  rfl

theorem organizeSmart_eq {x : Str} (h : parseSections x ≠ []) :
    organizeSmart x = lineJoin (allLines (parseSections x)) ++ ['\n'] := by
  have hgood : ∀ sec ∈ parseSections x, GoodSec sec := fun sec hs => goodSec_of_parse hs
  have hrend : ∀ sec ∈ parseSections x, renderSection sec = lineJoin (renderedLines sec) :=
    fun sec hs => renderSection_eq (hgood sec hs)
  have hne2 : ∀ sec ∈ parseSections x, renderSection sec ≠ [] := by
    intro sec hs
    rw [hrend sec hs]
    exact lineJoin_ne_nil_of_ne (renderedLines_ne_nil (hgood sec hs))
      (fun l hl => (mem_renderedLines_good (hgood sec hs) l hl).1)
  rw [organizeSmart]
  have hfilter : ((parseSections x).map renderSection).filter (fun s => s.length > 0) =
      (parseSections x).map renderSection := by
    apply List.filter_eq_self.mpr
    intro a ha
    obtain ⟨sec, hs, rfl⟩ := List.mem_map.mp ha
    simpa [List.length_pos] using hne2 sec hs
  rw [hfilter]
  have hmap : (parseSections x).map renderSection =
      ((parseSections x).map renderedLines).map lineJoin := by
    rw [List.map_map]
    exact List.map_congr_left (fun sec hs => hrend sec hs)
  rw [hmap, sectionJoin_map_lineJoin (by
    intro g hg
    obtain ⟨sec, hs, rfl⟩ := List.mem_map.mp hg
    exact renderedLines_ne_nil (hgood sec hs))]
  rfl

/-! ### Re-parsing rendered output -/

theorem parseLines_feed_comments : ∀ (cs' t C : List Str),
    (∀ c ∈ cs', isCommentLineB c = true) →
    parseLines (cs' ++ t) ⟨C, []⟩ = parseLines t ⟨C ++ cs', []⟩ := by
  intro cs'
  induction cs' with
  | nil =>
    intro t C _
    rw [List.nil_append, List.append_nil]
  | cons c cs ih =>
    intro t C hcom
    have h1 : startsWithHash (trim c) = true := hcom c (List.mem_cons_self _ _)
    rw [List.cons_append, parseLines_comment_app h1 rfl,
      ih t (C ++ [c]) (fun a ha => hcom a (List.mem_cons_of_mem _ ha)),
      List.append_assoc]
    rfl

theorem parseLines_feed_rules : ∀ (rs t C R : List Str),
    (∀ r ∈ rs, goodRule r) →
    parseLines (rs ++ t) ⟨C, R⟩ = parseLines t ⟨C, R ++ rs⟩ := by
  intro rs
  induction rs with
  | nil =>
    intro t C R _
    rw [List.nil_append, List.append_nil]
  | cons r rs' ih =>
    intro t C R hgood
    obtain ⟨ht, hne, hh⟩ := hgood r (List.mem_cons_self _ _)
    rw [List.cons_append, parseLines_rule (by rw [ht]; exact hne) (by rw [ht]; exact hh),
      ht, ih t C (R ++ [r]) (fun a ha => hgood a (List.mem_cons_of_mem _ ha)),
      List.append_assoc]
    rfl

theorem canonComments_ne_nil {sec : Section} (h : sec.comments ≠ []) :
    canonComments sec ≠ [] := by
  intro h0
  have := (canonComments_rel sec).length_eq
  rw [h0] at this
  simp at this
  exact h this

theorem goodSec_canon {sec : Section} (hg : GoodSec sec) : GoodSec (canonSec sec) := by
  refine ⟨?_, ?_, ?_⟩
  · intro c hc
    refine ⟨canonComments_commentB hc hg, ?_⟩
    obtain ⟨c0, hc0, hrel⟩ := forall2_mem_right (canonComments_rel sec) c hc
    intro hnl
    apply (hg.1 c0 hc0).2
    rcases hrel with rfl | rfl | rfl | rfl
    · exact hnl
    · exact (ltrim_sublist c0).mem hnl
    · exact (rtrim_sublist c0).mem hnl
    · exact trim_subset _ hnl
  · intro r hr
    exact hg.2.1 r (mem_uniqueRules.mp hr)
  · rcases hg.2.2 with h | h
    · left
      exact canonComments_ne_nil h
    · right
      exact uniqueRules_ne_nil h

theorem reparse_section {sec : Section} (hg : GoodSec sec) (t : List Str) :
    parseLines (renderedLines sec ++ [] :: t) ⟨[], []⟩ =
      canonSec sec :: parseLines t ⟨[], []⟩ := by
  rw [renderedLines_eq hg, List.append_assoc,
    parseLines_feed_comments _ _ [] (fun c hc => canonComments_commentB hc hg),
    List.nil_append,
    parseLines_feed_rules _ _ _ _ (fun r hr => (hg.2.1 r (mem_uniqueRules.mp hr)).1),
    List.nil_append]
  have hne : canonComments sec ≠ [] ∨ uniqueRules sec ≠ [] := by
    rcases hg.2.2 with h | h
    · exact Or.inl (canonComments_ne_nil h)
    · exact Or.inr (uniqueRules_ne_nil h)
  rw [parseLines_blank_pos (show trim ([] : Str) = [] from rfl) hne t]
  rfl

theorem reparse_all : ∀ (secs : List Section), (∀ sec ∈ secs, GoodSec sec) →
    parseLines (allLines secs ++ [[]]) ⟨[], []⟩ = secs.map canonSec := by
  intro secs
  induction secs with
  | nil =>
    intro _
    show parseLines ([] :: []) ⟨[], []⟩ = []
    rw [parseLines_blank_neg (show trim ([] : Str) = [] from rfl) rfl rfl,
      parseLines_nil_neg rfl rfl]
  | cons sec secs' ih =>
    intro hg
    cases secs' with
    | nil =>
      show parseLines (renderedLines sec ++ [] :: []) ⟨[], []⟩ = [canonSec sec]
      rw [reparse_section (hg sec (List.mem_cons_self _ _)) [],
        parseLines_nil_neg rfl rfl]
    | cons sec0 secs0 =>
      have hall : allLines (sec :: sec0 :: secs0) =
          renderedLines sec ++ [] :: allLines (sec0 :: secs0) := by
        rw [allLines, List.map_cons, groupLines_cons (by simp)]
        rfl
      rw [hall, List.append_assoc, List.cons_append,
        reparse_section (hg sec (List.mem_cons_self _ _)),
        ih (fun s hs => hg s (List.mem_cons_of_mem _ hs))]
      rfl

theorem mem_renderedLines_subset {sec : Section} (hg : GoodSec sec) {l : Str}
    (hl : l ∈ renderedLines sec) :
    ∀ a ∈ l, (∃ c ∈ sec.comments, a ∈ c) ∨ ∃ r ∈ sec.rules, a ∈ r := by
  intro a ha
  rw [renderedLines_eq hg] at hl
  rcases List.mem_append.mp hl with h1 | h1
  · obtain ⟨c, hc, hrel⟩ := forall2_mem_right (canonComments_rel sec) l h1
    left
    refine ⟨c, hc, ?_⟩
    rcases hrel with rfl | rfl | rfl | rfl
    · exact ha
    · exact (ltrim_sublist c).mem ha
    · exact (rtrim_sublist c).mem ha
    · exact trim_subset _ ha
  · right
    exact ⟨l, mem_uniqueRules.mp h1, ha⟩

theorem parse_comment_line {x : Str} {sec : Section} {c : Str}
    (hsec : sec ∈ parseSections x) (hc : c ∈ sec.comments) : c ∈ splitLines x := by
  have hmem : c ∈ ((parseLines (splitLines x) ⟨[], []⟩).map Section.comments).flatten :=
    List.mem_flatten.mpr ⟨sec.comments, List.mem_map.mpr ⟨sec, hsec, rfl⟩, hc⟩
  rw [parse_comments_flatten] at hmem
  simp only [List.nil_append] at hmem
  exact (List.mem_filter.mp hmem).1

theorem parse_rule_line {x : Str} {sec : Section} {r : Str}
    (hsec : sec ∈ parseSections x) (hr : r ∈ sec.rules) :
    ∃ l ∈ splitLines x, trim l = r := by
  have hmem : r ∈ ((parseLines (splitLines x) ⟨[], []⟩).map Section.rules).flatten :=
    List.mem_flatten.mpr ⟨sec.rules, List.mem_map.mpr ⟨sec, hsec, rfl⟩, hr⟩
  rw [parse_rules_flatten] at hmem
  simp only [List.nil_append] at hmem
  obtain ⟨l, hl, hrl⟩ := List.mem_map.mp (List.mem_filter.mp hmem).1
  exact ⟨l, hl, hrl⟩

theorem crFree_of_parse {x : Str} (hx : '\r' ∉ x) {sec : Section}
    (hsec : sec ∈ parseSections x) :
    (∀ c ∈ sec.comments, '\r' ∉ c) ∧ ∀ r ∈ sec.rules, '\r' ∉ r := by
  constructor
  · intro c hc hcr
    exact hx (mem_splitLines_subset c (parse_comment_line hsec hc) _ hcr)
  · intro r hr hcr
    obtain ⟨l, hl, hrl⟩ := parse_rule_line hsec hr
    rw [← hrl] at hcr
    exact hx (mem_splitLines_subset l hl _ (trim_subset _ hcr))

theorem allLines_ne_nil {secs : List Section} (h : secs ≠ [])
    (hg : ∀ sec ∈ secs, GoodSec sec) : allLines secs ≠ [] := by
  apply groupLines_ne_nil
  · intro h0
    rw [List.map_eq_nil_iff] at h0
    exact h h0
  · intro g hgm
    obtain ⟨sec, hs, rfl⟩ := List.mem_map.mp hgm
    exact renderedLines_ne_nil (hg sec hs)

theorem splitLines_organizeSmart {x : Str} (hx : '\r' ∉ x) (h : parseSections x ≠ []) :
    splitLines (organizeSmart x) = allLines (parseSections x) ++ [[]] := by
  have hgood : ∀ sec ∈ parseSections x, GoodSec sec := fun s hs => goodSec_of_parse hs
  have hprops : ∀ l ∈ allLines (parseSections x), '\n' ∉ l ∧ '\r' ∉ l := by
    intro l hl
    rcases mem_groupLines.mp hl with ⟨rfl, _⟩ | ⟨g, hgm, hlg⟩
    · simp
    · obtain ⟨sec, hs, rfl⟩ := List.mem_map.mp hgm
      refine ⟨(mem_renderedLines_good (hgood sec hs) l hlg).2, ?_⟩
      intro hcr
      rcases mem_renderedLines_subset (hgood sec hs) hlg _ hcr with ⟨c, hc, hin⟩ | ⟨r, hr, hin⟩
      · exact (crFree_of_parse hx hs).1 c hc hin
      · exact (crFree_of_parse hx hs).2 r hr hin
  rw [organizeSmart_eq h,
    splitLines_join (allLines_ne_nil h hgood) (fun l hl => (hprops l hl).1)]
  congr 1
  calc (allLines (parseSections x)).map chopCR
      = (allLines (parseSections x)).map id :=
        List.map_congr_left (fun l hl => chopCR_no_cr (hprops l hl).2)
    _ = allLines (parseSections x) := List.map_id _

theorem mapHead_idem {f : Str → Str} (hf : ∀ a, f (f a) = f a) (ls : List Str) :
    mapHead f (mapHead f ls) = mapHead f ls := by
  cases ls with
  | nil => rfl
  | cons l ls' =>
    show f (f l) :: ls' = f l :: ls'
    rw [hf l]

theorem mapLast_idem {f : Str → Str} (hf : ∀ a, f (f a) = f a) :
    ∀ ls : List Str, mapLast f (mapLast f ls) = mapLast f ls := by
  intro ls
  induction ls with
  | nil => rfl
  | cons l ls' ih =>
    cases ls' with
    | nil =>
      show mapLast f [f l] = [f l]
      rw [show mapLast f [f l] = [f (f l)] from rfl, hf l]
    | cons l0 ls0 =>
      rw [mapLast_cons f (by simp), mapLast_cons f (mapLast_ne_nil f (by simp)), ih]

theorem edgeTrim_idem (ls : List Str) :
    mapHead ltrim (mapLast rtrim (mapHead ltrim (mapLast rtrim ls))) =
      mapHead ltrim (mapLast rtrim ls) := by
  cases ls with
  | nil => rfl
  | cons c cs =>
    cases cs with
    | nil =>
      show [ltrim (rtrim (ltrim (rtrim c)))] = [ltrim (rtrim c)]
      exact congrArg (fun z => [z]) (trim_trim c)
    | cons c0 cs0 =>
      rw [mapLast_cons rtrim (by simp), mapHead_cons,
        mapLast_cons rtrim (mapLast_ne_nil rtrim (by simp)), mapHead_cons,
        mapLast_idem rtrim_idem, ltrim_idem]

theorem canonComments_canon (sec : Section) :
    canonComments (canonSec sec) = canonComments sec := by
  show canonComments ⟨canonComments sec, uniqueRules sec⟩ = canonComments sec
  rw [canonComments, uniqueRules_canon]
  by_cases hur : uniqueRules sec = []
  · rw [if_pos hur, canonComments, if_pos hur]
    exact edgeTrim_idem sec.comments
  · rw [if_neg hur, canonComments, if_neg hur]
    exact mapHead_idem ltrim_idem sec.comments

theorem renderSection_canon {sec : Section} (hg : GoodSec sec) :
    renderSection (canonSec sec) = renderSection sec := by
  rw [renderSection_eq (goodSec_canon hg), renderSection_eq hg]
  congr 1
  rw [renderedLines_eq (goodSec_canon hg), renderedLines_eq hg]
  show canonComments (canonSec sec) ++ uniqueRules (canonSec sec) = _
  rw [canonComments_canon]
  congr 1
  exact uniqueRules_canon _ _

theorem organizeSmart_idem_of_no_cr {x : Str} (hx : '\r' ∉ x) :
    organizeSmart (organizeSmart x) = organizeSmart x := by
  by_cases h : parseSections x = []
  · rw [organizeSmart_of_nil h]
    decide
  · have hgood : ∀ sec ∈ parseSections x, GoodSec sec := fun s hs => goodSec_of_parse hs
    have hps : parseSections (organizeSmart x) = (parseSections x).map canonSec := by
      rw [parseSections, splitLines_organizeSmart hx h, reparse_all _ hgood]
    show sectionJoin (((parseSections (organizeSmart x)).map renderSection).filter
      (fun s => s.length > 0)) ++ ['\n'] = organizeSmart x
    rw [hps, List.map_map]
    have hcongr : (parseSections x).map (renderSection ∘ canonSec) =
        (parseSections x).map renderSection :=
      List.map_congr_left (fun sec hs => renderSection_canon (hgood sec hs))
    rw [hcongr]
    rfl

/-! ### Flat mode composed with Smart mode -/

theorem splitLines_organizeSmart_gen {x : Str} (h : parseSections x ≠ []) :
    splitLines (organizeSmart x) = (allLines (parseSections x)).map chopCR ++ [[]] := by
  have hgood : ∀ sec ∈ parseSections x, GoodSec sec := fun s hs => goodSec_of_parse hs
  have hnl : ∀ l ∈ allLines (parseSections x), '\n' ∉ l := by
    intro l hl
    rcases mem_groupLines.mp hl with ⟨rfl, _⟩ | ⟨g, hgm, hlg⟩
    · simp
    · obtain ⟨sec, hs, rfl⟩ := List.mem_map.mp hgm
      exact (mem_renderedLines_good (hgood sec hs) l hlg).2
  rw [organizeSmart_eq h, splitLines_join (allLines_ne_nil h hgood) hnl]

theorem flatCollect_trim_congr : ∀ {ls1 ls2 : List Str}, ls1.map trim = ls2.map trim →
    ∀ seen, flatCollect ls1 seen = flatCollect ls2 seen := by
  intro ls1
  induction ls1 with
  | nil =>
    intro ls2 h seen
    cases ls2 with
    | nil => rfl
    | cons l2 t2 => simp at h
  | cons l1 t1 ih =>
    intro ls2 h seen
    cases ls2 with
    | nil => simp at h
    | cons l2 t2 =>
      simp only [List.map_cons, List.cons.injEq] at h
      obtain ⟨h1, h2⟩ := h
      rw [flatCollect, flatCollect, h1, ih h2 (trim l2 :: seen), ih h2 seen]

theorem flatRules_nil_of_parse_nil {x : Str} (h : parseSections x = []) :
    flatRules x = [] := by
  have hfil : ((splitLines x).map trim).filter
      (fun t => !t.isEmpty && !startsWithHash t) = [] := by
    have hp := parse_rules_flatten (splitLines x) ⟨[], []⟩
    rw [show parseLines (splitLines x) ⟨[], []⟩ = parseSections x from rfl, h] at hp
    simpa using hp.symm
  apply List.eq_nil_iff_forall_not_mem.mpr
  intro t ht
  obtain ⟨-, ⟨l0, hl0, hrl⟩, hne, hhash⟩ :=
    (mem_flatCollect _ _).mp (mem_flatRules.mp ht)
  have hmem : t ∈ ((splitLines x).map trim).filter
      (fun t => !t.isEmpty && !startsWithHash t) :=
    List.mem_filter.mpr ⟨List.mem_map.mpr ⟨l0, hl0, hrl⟩,
      by simp [List.isEmpty_iff, hne, hhash]⟩
  rw [hfil] at hmem
  simp at hmem

theorem flatCollect_smart_mem {x : Str} (h : parseSections x ≠ []) (t : Str) :
    t ∈ flatCollect (splitLines (organizeSmart x)) [] ↔
      t ∈ flatCollect (splitLines x) [] := by
  have hgood : ∀ sec ∈ parseSections x, GoodSec sec := fun s hs => goodSec_of_parse hs
  have hcoll : flatCollect (splitLines (organizeSmart x)) [] =
      flatCollect (allLines (parseSections x) ++ [[]]) [] := by
    rw [splitLines_organizeSmart_gen h]
    apply flatCollect_trim_congr
    rw [List.map_append, List.map_append, List.map_map]
    congr 1
    exact List.map_congr_left (fun l _ => trim_chopCR l)
  rw [hcoll, mem_flatCollect, mem_flatCollect]
  constructor
  · rintro ⟨-, ⟨l0, hl0, hrl⟩, hne, hhash⟩
    refine ⟨by simp, ?_, hne, hhash⟩
    rcases List.mem_append.mp hl0 with hmem | hmem
    · rcases mem_groupLines.mp hmem with ⟨rfl, _⟩ | ⟨g, hgm, hlg⟩
      · exact absurd hrl.symm (by simpa using hne)
      · obtain ⟨sec, hs, rfl⟩ := List.mem_map.mp hgm
        rw [renderedLines_eq (hgood sec hs)] at hlg
        rcases List.mem_append.mp hlg with hc | hr
        · exfalso
          obtain ⟨c, hcm, htr⟩ := mem_canonComments_trim hc
          rw [hrl] at htr
          have h1 : startsWithHash (trim c) = true := ((hgood sec hs).1 c hcm).1
          rw [← htr] at h1
          rw [h1] at hhash
          simp at hhash
        · have hrule := (hgood sec hs).2.1 l0 (mem_uniqueRules.mp hr)
          rw [hrule.1.1] at hrl
          subst hrl
          exact parse_rule_line hs (mem_uniqueRules.mp hr)
    · have : l0 = [] := by simpa using hmem
      subst this
      exact absurd hrl.symm (by simpa using hne)
  · rintro ⟨-, ⟨l0, hl0, hrl⟩, hne, hhash⟩
    refine ⟨by simp, ?_, hne, hhash⟩
    have hmem : t ∈ ((parseLines (splitLines x) ⟨[], []⟩).map Section.rules).flatten := by
      rw [parse_rules_flatten]
      simp only [List.nil_append]
      exact List.mem_filter.mpr ⟨List.mem_map.mpr ⟨l0, hl0, hrl⟩,
        by simp [List.isEmpty_iff, hne, hhash]⟩
    obtain ⟨rs, hrs, htin⟩ := List.mem_flatten.mp hmem
    obtain ⟨sec, hs, rfl⟩ := List.mem_map.mp hrs
    have htrim : trim t = t := (hgood sec hs).2.1 t htin |>.1.1
    refine ⟨t, ?_, htrim⟩
    apply List.mem_append.mpr
    left
    apply mem_groupLines.mpr
    right
    refine ⟨renderedLines sec, List.mem_map.mpr ⟨sec, hs, rfl⟩, ?_⟩
    rw [renderedLines_eq (hgood sec hs)]
    exact List.mem_append.mpr (Or.inr (mem_uniqueRules.mpr htin))

theorem flatRules_of_smart (x : Str) : flatRules (organizeSmart x) = flatRules x := by
  by_cases h : parseSections x = []
  · rw [organizeSmart_of_nil h, flatRules_nil_of_parse_nil h]
    decide
  · have hperm : List.Perm (flatCollect (splitLines (organizeSmart x)) [])
        (flatCollect (splitLines x) []) :=
      (List.perm_ext_iff_of_nodup (flatCollect_nodup _ _) (flatCollect_nodup _ _)).mpr
        (flatCollect_smart_mem h)
    have hperm2 : List.Perm (flatRules (organizeSmart x)) (flatRules x) :=
      ((List.perm_insertionSort jsLE _).trans hperm).trans
        (List.perm_insertionSort jsLE _).symm
    exact List.eq_of_perm_of_sorted hperm2 (flatRules_sorted _) (flatRules_sorted _)

theorem organizeFlat_organizeSmart (x : Str) :
    organizeFlat (organizeSmart x) = organizeFlat x := by
  rw [organizeFlat_eq, organizeFlat_eq, flatRules_of_smart]

/-! ### Line-ending insensitivity -/

theorem chopCR_cons {c : Char} {p : Str} (hc : c ≠ '\r') :
    chopCR (c :: p) = c :: chopCR p := by
  cases p with
  | nil =>
    rw [chopCR, chopCR, if_neg (by simpa using hc)]
    rfl
  | cons d p' =>
    rw [chopCR, chopCR, List.getLast?_cons_cons]
    by_cases h : (d :: p').getLast? = some '\r'
    · rw [if_pos h, if_pos h]
      rfl
    · rw [if_neg h, if_neg h]

theorem splitLines_cons_char {c : Char} {y : Str} (h1 : c ≠ '\n') (h2 : c ≠ '\r') :
    splitLines (c :: y) = consHead c (splitLines y) := by
  unfold splitLines
  rw [splitNL, if_neg h1]
  rcases hp : splitNL y with _ | ⟨p, ps⟩
  · exact absurd hp (splitNL_ne_nil y)
  · rw [consHead]
    cases ps with
    | nil => rfl
    | cons q qs =>
      rw [List.dropLast_cons_of_ne_nil (List.cons_ne_nil q qs),
        List.dropLast_cons_of_ne_nil (List.cons_ne_nil q qs),
        List.map_cons, List.map_cons, chopCR_cons h2]
      simp only [List.length_cons, Nat.add_sub_cancel, List.drop_succ_cons,
        List.cons_append, consHead]

theorem splitLines_replaceNL : ∀ {x : Str}, '\r' ∉ x →
    splitLines (replaceNL x) = splitLines x := by
  intro x
  induction x with
  | nil => intro _; rfl
  | cons c t ih =>
    intro hx
    have hct : '\r' ∉ t := fun h => hx (List.mem_cons_of_mem _ h)
    by_cases hc : c = '\n'
    · subst hc
      show splitLines (('\r' :: []) ++ '\n' :: replaceNL t) = splitLines ([] ++ '\n' :: t)
      rw [splitLines_append_nl (by simp) (replaceNL t),
        splitLines_append_nl (by simp) t, ih hct]
      rfl
    · have hcr : c ≠ '\r' := fun h => hx (h ▸ List.mem_cons_self _ _)
      have hstep : replaceNL (c :: t) = c :: replaceNL t := by
        rw [replaceNL, if_neg hc]
      rw [hstep, splitLines_cons_char hc hcr, splitLines_cons_char hc hcr, ih hct]

theorem splitLines_joinSeps : ∀ (ls : List Str) (bs : List Bool), ls ≠ [] →
    (∀ l ∈ ls, '\n' ∉ l ∧ '\r' ∉ l) → splitLines (joinSeps ls bs) = ls := by
  intro ls
  induction ls with
  | nil => intro bs h; exact absurd rfl h
  | cons l ls' ih =>
    intro bs _ hprop
    cases ls' with
    | nil =>
      show splitLines l = [l]
      exact splitLines_of_no_nl (hprop l (by simp)).1
    | cons l0 ls0 =>
      have hl := hprop l (by simp)
      have hrest : ∀ a ∈ l0 :: ls0, '\n' ∉ a ∧ '\r' ∉ a :=
        fun a ha => hprop a (List.mem_cons_of_mem _ ha)
      cases bs with
      | nil =>
        show splitLines (l ++ '\n' :: joinSeps (l0 :: ls0) []) = _
        rw [splitLines_append_nl hl.1, chopCR_no_cr hl.2, ih [] (by simp) hrest]
      | cons b bs' =>
        show splitLines (l ++ sep b ++ joinSeps (l0 :: ls0) bs') = _
        cases b with
        | false =>
          show splitLines (l ++ ['\n'] ++ joinSeps (l0 :: ls0) bs') = _
          rw [List.append_assoc, List.singleton_append,
            splitLines_append_nl hl.1, chopCR_no_cr hl.2, ih bs' (by simp) hrest]
        | true =>
          show splitLines (l ++ ['\r', '\n'] ++ joinSeps (l0 :: ls0) bs') = _
          have hsh : l ++ ['\r', '\n'] ++ joinSeps (l0 :: ls0) bs' =
              (l ++ ['\r']) ++ '\n' :: joinSeps (l0 :: ls0) bs' := by
            simp
          rw [hsh, splitLines_append_nl (by
              intro hmem
              rcases List.mem_append.mp hmem with hm | hm
              · exact hl.1 hm
              · simp at hm)]
          rw [ih bs' (by simp) hrest]
          congr 1
          rw [chopCR, if_pos (by simp), List.dropLast_concat]

theorem organize_congr_splitLines {y z : Str} (h : splitLines y = splitLines z)
    (m : SortMode) : organize y m = organize z m := by
  cases m with
  | Flat =>
    show lineJoin (List.insertionSort jsLE (flatCollect (splitLines y) [])) ++ ['\n'] =
      lineJoin (List.insertionSort jsLE (flatCollect (splitLines z) [])) ++ ['\n']
    rw [h]
  | Smart =>
    show sectionJoin (((parseLines (splitLines y) ⟨[], []⟩).map renderSection).filter
        (fun s => s.length > 0)) ++ ['\n'] =
      sectionJoin (((parseLines (splitLines z) ⟨[], []⟩).map renderSection).filter
        (fun s => s.length > 0)) ++ ['\n']
    rw [h]

theorem organize_replaceNL {x : Str} (hx : '\r' ∉ x) (m : SortMode) :
    organize (replaceNL x) m = organize x m :=
  organize_congr_splitLines (splitLines_replaceNL hx) m

theorem organize_joinSeps {x : Str} (hx : '\r' ∉ x) (bs : List Bool) (m : SortMode) :
    organize (joinSeps (splitNL x) bs) m = organize x m := by
  apply organize_congr_splitLines
  rw [splitLines_joinSeps (splitNL x) bs (splitNL_ne_nil x) (fun l hl =>
    ⟨mem_splitNL_no_nl l hl, fun hcr => hx (mem_splitNL_subset l hl _ hcr)⟩)]
  exact (splitLines_no_cr hx).symm

theorem organizeFlat_no_cr {x : Str} (hx : '\r' ∉ x) : '\r' ∉ organizeFlat x := by
  rw [organizeFlat_eq]
  intro hmem
  rcases List.mem_append.mp hmem with h1 | h1
  · rcases mem_lineJoin h1 with h2 | ⟨r, hr, hcr⟩
    · simp at h2
    · obtain ⟨-, ⟨l0, hl0, hrl⟩, -, -⟩ :=
        (mem_flatCollect _ _).mp (mem_flatRules.mp hr)
      rw [← hrl] at hcr
      exact hx (mem_splitLines_subset l0 hl0 _ (trim_subset _ hcr))
  · simp at h1

theorem organizeSmart_no_cr {x : Str} (hx : '\r' ∉ x) : '\r' ∉ organizeSmart x := by
  by_cases h : parseSections x = []
  · rw [organizeSmart_of_nil h]
    simp
  · rw [organizeSmart_eq h]
    intro hmem
    rcases List.mem_append.mp hmem with h1 | h1
    · rcases mem_lineJoin h1 with h2 | ⟨l, hl, hcr⟩
      · simp at h2
      · rcases mem_groupLines.mp hl with ⟨rfl, -⟩ | ⟨g, hgm, hlg⟩
        · simp at hcr
        · obtain ⟨sec, hs, rfl⟩ := List.mem_map.mp hgm
          rcases mem_renderedLines_subset (goodSec_of_parse hs) hlg _ hcr with
            ⟨c, hc, hin⟩ | ⟨r, hr, hin⟩
          · exact (crFree_of_parse hx hs).1 c hc hin
          · exact (crFree_of_parse hx hs).2 r hr hin
    · simp at h1

theorem organize_no_cr {x : Str} (hx : '\r' ∉ x) (m : SortMode) :
    '\r' ∉ organize x m := by
  cases m with
  | Flat => exact organizeFlat_no_cr hx
  | Smart => exact organizeSmart_no_cr hx

theorem renderedLines_filter_rules {sec : Section} (hg : GoodSec sec) :
    (renderedLines sec).filter isRuleLineB = uniqueRules sec := by
  rw [renderedLines_eq hg, List.filter_append]
  have h1 : (canonComments sec).filter isRuleLineB = [] := by
    apply List.filter_eq_nil_iff.mpr
    intro c hc
    have hcb := canonComments_commentB hc hg
    simp [isRuleLineB, isCommentLineB] at hcb ⊢
    intro _
    exact hcb
  have h2 : (uniqueRules sec).filter isRuleLineB = uniqueRules sec := by
    apply List.filter_eq_self.mpr
    intro r hr
    have hrg := (hg.2.1 r (mem_uniqueRules.mp hr)).1
    rw [isRuleLineB, hrg.1]
    simp [List.isEmpty_iff, hrg.2.1, hrg.2.2]
  rw [h1, h2, List.nil_append]

/-! ## The claims -/

/-- C1: in Smart mode the parser's section-break rules hold for every line and
every accumulator state: a comment line with rules already collected flushes
the section and starts a new one whose comments begin with that line; a rule
line while the section holds only comments is appended without a flush; a
blank line flushes exactly when the section is non-empty. -/
theorem C1_parser_section_breaks (line : Str) (ls : List Str) (cur : Section) :
    (isCommentLineB line = true → cur.rules ≠ [] →
      parseLines (line :: ls) cur = cur :: parseLines ls ⟨[line], []⟩) ∧
    (isRuleLineB line = true → cur.comments ≠ [] → cur.rules = [] →
      parseLines (line :: ls) cur =
        parseLines ls ⟨cur.comments, cur.rules ++ [trim line]⟩) ∧
    (trim line = [] →
      (cur.comments ≠ [] ∨ cur.rules ≠ [] →
        parseLines (line :: ls) cur = cur :: parseLines ls ⟨[], []⟩) ∧
      (cur.comments = [] → cur.rules = [] →
        parseLines (line :: ls) cur = parseLines ls cur)) := by
  refine ⟨?_, ?_, ?_⟩
  · intro h1 h2
    exact parseLines_comment_flush h1 h2 ls
  · intro h1 _ _
    rw [isRuleLineB] at h1
    simp only [Bool.and_eq_true, Bool.not_eq_true'] at h1
    exact parseLines_rule (by simpa [List.isEmpty_iff] using h1.1) h1.2 ls cur
  · intro h1
    exact ⟨fun h2 => parseLines_blank_pos h1 h2 ls,
      fun h2 h3 => parseLines_blank_neg h1 h2 h3 ls⟩

/-- Witness for C1 at concrete lines and accumulator states. -/
theorem C1_witness :
    parseLines [str "# h"] ⟨[], [str "a"]⟩ =
      ⟨[], [str "a"]⟩ :: parseLines [] ⟨[str "# h"], []⟩ ∧
    parseLines [str "b"] ⟨[str "# c"], []⟩ =
      parseLines [] ⟨[str "# c"], [] ++ [trim (str "b")]⟩ ∧
    parseLines [str " "] ⟨[str "# c"], []⟩ = ⟨[str "# c"], []⟩ :: parseLines [] ⟨[], []⟩ ∧
    parseLines [str " "] ⟨[], []⟩ = parseLines [] ⟨[], []⟩ := by
  refine ⟨?_, ?_, ?_, ?_⟩
  · exact (C1_parser_section_breaks (str "# h") [] ⟨[], [str "a"]⟩).1 (by decide) (by decide)
  · exact (C1_parser_section_breaks (str "b") [] ⟨[str "# c"], []⟩).2.1
      (by decide) (by decide) rfl
  · exact ((C1_parser_section_breaks (str " ") [] ⟨[str "# c"], []⟩).2.2 (by decide)).1
      (by decide)
  · exact ((C1_parser_section_breaks (str " ") [] ⟨[], []⟩).2.2 (by decide)).2 rfl rfl

/-- C2 fails as stated: Smart mode is not idempotent on every input. A
`\r\r\n` sequence leaves a comment stored with a trailing `\r`; the first
output keeps that `\r` before a `\n`, and the second run absorbs it into the
line break. -/
theorem C2_counterexample :
    organize (organize (str "# c\r\r\nrule\n") .Smart) .Smart ≠
      organize (str "# c\r\r\nrule\n") .Smart := by decide

/-- C2 amended: Flat mode is idempotent on every input, and Smart mode is
idempotent on every input that contains no carriage return. -/
theorem C2_idempotence_amended (x : Str) :
    organize (organize x .Flat) .Flat = organize x .Flat ∧
    ('\r' ∉ x → organize (organize x .Smart) .Smart = organize x .Smart) :=
  ⟨organizeFlat_idem x, fun hx => organizeSmart_idem_of_no_cr hx⟩

/-- Witness for C2 at a concrete carriage-return-free input. -/
theorem C2_witness :
    organize (organize (str "b\na\n") .Flat) .Flat = organize (str "b\na\n") .Flat ∧
    organize (organize (str "b\na\n") .Smart) .Smart = organize (str "b\na\n") .Smart :=
  ⟨(C2_idempotence_amended (str "b\na\n")).1,
    (C2_idempotence_amended (str "b\na\n")).2 (by decide)⟩

/-- C3 fails as stated: a comment line carrying leading whitespace is not
reproduced character-for-character, because the rendered section is trimmed
as a whole, which strips the first line's leading whitespace. -/
theorem C3_counterexample :
    organizeSmart (str "  # a\nb\n") = str "# a\nb\n" ∧
    str "  # a" ∉ splitLines (organizeSmart (str "  # a\nb\n")) := by decide

/-- C3 amended: every comment line is attached, in original order, to the
section that follows it, and appears in that section's rendering verbatim
except that the rendered section's first line may lose leading whitespace and
its last line trailing whitespace. -/
theorem C3_comment_preservation_amended (x : Str) :
    ((parseSections x).map Section.comments).flatten =
      (splitLines x).filter isCommentLineB ∧
    ∀ sec ∈ parseSections x,
      renderSection sec = lineJoin (canonComments sec ++ uniqueRules sec) ∧
      List.Forall₂ commentRendered sec.comments (canonComments sec) := by
  constructor
  · have h := parse_comments_flatten (splitLines x) ⟨[], []⟩
    simpa using h
  · intro sec hs
    refine ⟨?_, canonComments_rel sec⟩
    rw [renderSection_eq (goodSec_of_parse hs), renderedLines_eq (goodSec_of_parse hs)]

/-- Witness for C3 at a concrete input and parsed section. -/
theorem C3_witness :
    ((parseSections (str "# a\nb\n")).map Section.comments).flatten =
      (splitLines (str "# a\nb\n")).filter isCommentLineB ∧
    renderSection ⟨[str "# a"], [str "b"]⟩ =
      lineJoin (canonComments ⟨[str "# a"], [str "b"]⟩ ++
        uniqueRules ⟨[str "# a"], [str "b"]⟩) :=
  ⟨(C3_comment_preservation_amended (str "# a\nb\n")).1,
    ((C3_comment_preservation_amended (str "# a\nb\n")).2
      ⟨[str "# a"], [str "b"]⟩ (by decide)).1⟩

/-- C4 fails as stated: the sort is by UTF-16 code units, not code points. A
supplementary-plane pattern (U+10000) sorts before U+FFFF because its high
surrogate 0xD800 is below 0xFFFF, so the output is not in code-point order. -/
theorem C4_counterexample :
    organizeFlat ([Char.ofNat 0x10000] ++ '\n' :: [Char.ofNat 0xFFFF] ++ ['\n']) =
      [Char.ofNat 0x10000] ++ '\n' :: [Char.ofNat 0xFFFF] ++ ['\n'] ∧
    jsLE [Char.ofNat 0x10000] [Char.ofNat 0xFFFF] ∧
    ¬ cpLE [Char.ofNat 0x10000] [Char.ofNat 0xFFFF] := by decide

/-- C4 amended: rule lines appear in non-decreasing UTF-16 code-unit
lexicographic order on the full trimmed pattern — per rendered section in
Smart mode and document-wide in Flat mode — with no locale-aware or
case-insensitive comparison and no special treatment of `!` or `/`; this
order agrees with code-point order except across the surrogate boundary. -/
theorem C4_sortedness_amended (x : Str) :
    (organizeFlat x = lineJoin (flatRules x) ++ ['\n'] ∧ (flatRules x).Sorted jsLE) ∧
    ∀ sec ∈ parseSections x,
      renderSection sec = lineJoin (renderedLines sec) ∧
      (renderedLines sec).filter isRuleLineB = uniqueRules sec ∧
      (uniqueRules sec).Sorted jsLE := by
  refine ⟨⟨organizeFlat_eq x, flatRules_sorted x⟩, ?_⟩
  intro sec hs
  exact ⟨renderSection_eq (goodSec_of_parse hs),
    renderedLines_filter_rules (goodSec_of_parse hs), uniqueRules_sorted sec⟩

/-- Witness for C4 at a concrete input and parsed section. -/
theorem C4_witness :
    (flatRules (str "b\na\n")).Sorted jsLE ∧
    (uniqueRules ⟨[], [str "b", str "a"]⟩).Sorted jsLE ∧
    (renderedLines ⟨[], [str "b", str "a"]⟩).filter isRuleLineB =
      uniqueRules ⟨[], [str "b", str "a"]⟩ :=
  ⟨(C4_sortedness_amended (str "b\na\n")).1.2,
    ((C4_sortedness_amended (str "b\na\n")).2 ⟨[], [str "b", str "a"]⟩ (by decide)).2.2,
    ((C4_sortedness_amended (str "b\na\n")).2 ⟨[], [str "b", str "a"]⟩ (by decide)).2.1⟩

/-- C5: neither mode emits duplicate rule lines — globally in Flat mode, and
within each rendered section in Smart mode. -/
theorem C5_dedup (x : Str) :
    (organizeFlat x = lineJoin (flatRules x) ++ ['\n'] ∧ (flatRules x).Nodup) ∧
    ∀ sec ∈ parseSections x,
      renderSection sec = lineJoin (renderedLines sec) ∧
      (renderedLines sec).filter isRuleLineB = uniqueRules sec ∧
      (uniqueRules sec).Nodup := by
  refine ⟨⟨organizeFlat_eq x, flatRules_nodup x⟩, ?_⟩
  intro sec hs
  exact ⟨renderSection_eq (goodSec_of_parse hs),
    renderedLines_filter_rules (goodSec_of_parse hs), uniqueRules_nodup sec⟩

/-- Witness for C5 at a concrete input and parsed section. -/
theorem C5_witness :
    (flatRules (str "a\nb\na\n")).Nodup ∧
    (uniqueRules ⟨[], [str "a", str "b", str "a"]⟩).Nodup :=
  ⟨(C5_dedup (str "a\nb\na\n")).1.2,
    ((C5_dedup (str "a\nb\na\n")).2 ⟨[], [str "a", str "b", str "a"]⟩ (by decide)).2.2⟩

/-- C6: a comment following rules without a blank line forces an implicit
section break, exactly as in the spec's Scenario D. -/
theorem C6_scenario_d :
    organize (str "a\n# New Section\nb\n") .Smart = str "a\n\n# New Section\nb\n" := by
  decide

/-- C7: when every input line is blank or a comment, Flat mode yields exactly
the one-character string of a newline; and no line of Flat output starts
with `#`. -/
theorem C7_flat_comment_removal (x : Str) :
    ((∀ l ∈ splitLines x, trim l = [] ∨ startsWithHash (trim l) = true) →
      organizeFlat x = ['\n']) ∧
    ∀ l ∈ splitLines (organizeFlat x), startsWithHash l = false := by
  constructor
  · intro h
    apply flatRules_nil_out
    apply List.eq_nil_iff_forall_not_mem.mpr
    intro t ht
    obtain ⟨-, ⟨l0, hl0, hrl⟩, hne, hhash⟩ :=
      (mem_flatCollect _ _).mp (mem_flatRules.mp ht)
    rcases h l0 hl0 with h1 | h1
    · rw [h1] at hrl
      exact hne hrl.symm
    · rw [hrl] at h1
      rw [h1] at hhash
      simp at hhash
  · intro l hl
    by_cases h : flatRules x = []
    · rw [flatRules_nil_out h] at hl
      have hsp : splitLines ['\n'] = [[], []] := by decide
      rw [hsp] at hl
      rcases List.mem_cons.mp hl with h1 | h1
      · rw [h1]; rfl
      · have : l = [] := by simpa using h1
        rw [this]; rfl
    · rw [splitLines_organizeFlat_pos h] at hl
      rcases List.mem_append.mp hl with h1 | h1
      · exact (flatRules_good l h1).2.2.1
      · have : l = [] := by simpa using h1
        rw [this]; rfl

/-- Witness for C7 at concrete inputs. -/
theorem C7_witness :
    organizeFlat (str "# a\n\n  \n# b\n") = ['\n'] ∧
    startsWithHash (str "a") = false :=
  ⟨(C7_flat_comment_removal (str "# a\n\n  \n# b\n")).1 (by decide),
    (C7_flat_comment_removal (str "a\n")).2 (str "a") (by decide)⟩

/-- C8 fails as stated: on an input that already contains `\r\n`, replacing
every `\n` by `\r\n` produces `\r\r\n`, whose leftover `\r` survives in a
kept comment line, so the output changes. -/
theorem C8_counterexample :
    organize (replaceNL (str "# c\r\nr\n")) .Smart ≠
      organize (str "# c\r\nr\n") .Smart := by decide

/-- C8 amended: for carriage-return-free input, rejoining its lines with any
mix of `\n` and `\r\n` separators — in particular replacing every `\n` by
`\r\n` — leaves the output of both modes unchanged, and the output contains
no `\r` (all line endings are `\n`). -/
theorem C8_lineEndings_amended (x : Str) (hx : '\r' ∉ x) :
    (∀ (bs : List Bool) (m : SortMode),
      organize (joinSeps (splitNL x) bs) m = organize x m) ∧
    (∀ m : SortMode, organize (replaceNL x) m = organize x m) ∧
    (∀ m : SortMode, '\r' ∉ organize x m) :=
  ⟨fun bs m => organize_joinSeps hx bs m,
    fun m => organize_replaceNL hx m,
    fun m => organize_no_cr hx m⟩

/-- Witness for C8 at a concrete carriage-return-free input. -/
theorem C8_witness :
    organize (replaceNL (str "b\na\n")) .Smart = organize (str "b\na\n") .Smart ∧
    organize (joinSeps (splitNL (str "b\na\n")) [true, false]) .Flat =
      organize (str "b\na\n") .Flat ∧
    '\r' ∉ organize (str "b\na\n") .Flat :=
  ⟨(C8_lineEndings_amended (str "b\na\n") (by decide)).2.1 .Smart,
    (C8_lineEndings_amended (str "b\na\n") (by decide)).1 [true, false] .Flat,
    (C8_lineEndings_amended (str "b\na\n") (by decide)).2.2 .Flat⟩

/-- C9: on the empty input both modes return exactly the one-character string
of a newline, not the empty string. -/
theorem C9_empty_input :
    organize [] .Smart = ['\n'] ∧ organize [] .Flat = ['\n'] := by decide

/-- C10: Flat mode absorbs Smart mode: flat-cleaning a smart-cleaned document
equals flat-cleaning the original, for every input. -/
theorem C10_flat_absorbs_smart (x : Str) :
    organize (organize x .Smart) .Flat = organize x .Flat :=
  organizeFlat_organizeSmart x

example : organizeFlat (str "b\n# keep\na\na\n") = str "a\nb\n" := by decide
example : organizeSmart (str "b\na\n") = str "a\nb\n" := by decide
example : organizeSmart (str "# Logs\n*.log\ndebug.log\n\n# Deps\nnode_modules\nnode_modules\n")
    = str "# Logs\n*.log\ndebug.log\n\n# Deps\nnode_modules\n" := by decide
example : organizeSmart (str "a\n# New Section\nb\n") = str "a\n\n# New Section\nb\n" := by
  decide
example : organizeSmart (str "") = str "\n" := by decide
example : organizeFlat (str "") = str "\n" := by decide

end GitignoreHelper
